import Mathlib

/-!
# Verification of the mozc system dictionary builder

A shallow embedding of `src/dictionary/system/system_dictionary_builder.cc`
(the offline system dictionary builder), together with proofs and refutations
of the specification's claims about it.

Modelling conventions:
* C++ `std::string` keys/values are lists of Unicode codepoints (`List Nat`);
  byte-wise lexicographic comparison of UTF-8 strings coincides with
  codepoint-wise lexicographic comparison, which `strLt` implements.
* `std::map` (ordered, ascending by key) is modelled by association lists with
  sorted, duplicate-free key columns.
* `std::stable_sort` / `std::sort` are modelled by insertion sort, which is
  stable; `std::sort`'s guarantee is only sortedness w.r.t. the comparator,
  which insertion sort refines.
* `CHECK` failures are `Outcome.fatal`; C++ undefined behaviour (out-of-bounds
  vector write, null-pointer dereference) is `Outcome.undef`.
* The external LOUDS trie builder, the bit-vector array builder and the codecs
  are out of scope of the source file; they are modelled from their contracts
  (see the individual definitions).
-/

namespace MozcBuilder

/-- Byte-wise (here: codepoint-wise) lexicographic strict order on strings,
the order used by C++ `std::string::operator<`. -/
def strLt : List Nat → List Nat → Bool
  | _, [] => false
  | [], _ :: _ => true
  | a :: as, b :: bs => a < b || (a == b && strLt as bs)

theorem strLt_irrefl (l : List Nat) : strLt l l = false := by
  induction l with
  | nil => rfl
  | cons a as ih => simp [strLt, ih]

theorem strLt_trans {a b c : List Nat} (hab : strLt a b = true)
    (hbc : strLt b c = true) : strLt a c = true := by
  induction a generalizing b c with
  | nil =>
    cases c with
    | nil => cases b <;> simp [strLt] at hab hbc
    | cons y ys => simp [strLt]
  | cons x xs ih =>
    cases b with
    | nil => simp [strLt] at hab
    | cons y ys =>
      cases c with
      | nil => simp [strLt] at hbc
      | cons z zs =>
        simp only [strLt, Bool.or_eq_true, Bool.and_eq_true, beq_iff_eq,
          decide_eq_true_eq] at hab hbc ⊢
        rcases hab with h1 | ⟨rfl, h1⟩
        · rcases hbc with h2 | ⟨rfl, h2⟩
          · exact Or.inl (lt_trans h1 h2)
          · exact Or.inl h1
        · rcases hbc with h2 | ⟨rfl, h2⟩
          · exact Or.inl h2
          · exact Or.inr ⟨rfl, ih h1 h2⟩

theorem strLt_connex {a b : List Nat} (hab : strLt a b = false)
    (hba : strLt b a = false) : a = b := by
  induction a generalizing b with
  | nil => cases b with
    | nil => rfl
    | cons y ys => simp [strLt] at hab
  | cons x xs ih =>
    cases b with
    | nil => simp [strLt] at hba
    | cons y ys =>
      simp only [strLt, Bool.or_eq_false_iff, Bool.and_eq_false_iff,
        beq_eq_false_iff_ne, ne_eq, decide_eq_false_iff_not, not_lt] at hab hba
      obtain ⟨hxy, hab'⟩ := hab
      obtain ⟨hyx, hba'⟩ := hba
      have hxyeq : x = y := le_antisymm hyx hxy
      subst hxyeq
      rcases hab' with h | h
      · exact absurd rfl h
      · rcases hba' with h' | h'
        · exact absurd rfl h'
        · exact congrArg (x :: ·) (ih h h')

/-- The non-strict companion of `strLt`; `std::stable_sort` with comparator
`lhs->key < rhs->key` produces a sequence pairwise related by it. -/
def strLe (a b : List Nat) : Prop := strLt b a = false

instance : DecidableRel strLe := fun a b => by
  unfold strLe; infer_instance

instance : IsTotal (List Nat) strLe where
  total a b := by
    unfold strLe
    rcases h : strLt b a with _ | _
    · exact Or.inl rfl
    · rcases h' : strLt a b with _ | _
      · exact Or.inr rfl
      · exact absurd (strLt_irrefl a) (by simp [strLt_trans h' h])

instance : IsTrans (List Nat) strLe where
  trans a b c hab hbc := by
    unfold strLe at *
    rcases h : strLt c a with _ | _
    · rfl
    · rcases h' : strLt b c with _ | _
      · have hb : b = c := strLt_connex h' hbc
        subst hb
        exact absurd hab (by simp [h])
      · exact absurd hab (by simp [strLt_trans h' h])

theorem strLt_asymm {a b : List Nat} (h : strLt a b = true) :
    strLt b a = false := by
  rcases h' : strLt b a with _ | _
  · rfl
  · exact absurd (strLt_irrefl a) (by simp [strLt_trans h h'])

end MozcBuilder

namespace MozcBuilder

/-- An input token (`dictionary/dictionary_token.h`): reading, surface form,
16-bit left/right POS ids, cost, attribute bits. -/
structure Token where
  key : List Nat
  value : List Nat
  lid : Nat
  rid : Nat
  cost : Int
  attributes : Nat
deriving DecidableEq, Repr

/-- `TokenInfo::CostType`. -/
inductive CostType where
  | DEFAULT_COST
  | CAN_USE_SMALL_ENCODING
deriving DecidableEq, Repr

/-- `TokenInfo::PosType`. -/
inductive PosType where
  | DEFAULT_POS
  | FREQUENT_POS
  | SAME_AS_PREV_POS
deriving DecidableEq, Repr

/-- `TokenInfo::ValueType`. -/
inductive ValueType where
  | DEFAULT_VALUE
  | SAME_AS_PREV_VALUE
  | AS_IS_HIRAGANA
  | AS_IS_KATAKANA
deriving DecidableEq, Repr

/-- Per-token annotation record (`dictionary/system/words_info.h`). -/
structure TokenInfo where
  token : Token
  id_in_value_trie : Nat
  cost_type : CostType
  pos_type : PosType
  id_in_frequent_pos_map : Nat
  value_type : ValueType
deriving DecidableEq, Repr

/-- Group of tokens sharing one reading (`SystemDictionaryBuilder::KeyInfo`). -/
structure KeyInfo where
  key : List Nat
  id_in_key_trie : Nat
  tokens : List TokenInfo
deriving DecidableEq, Repr

/-- Result of a builder step.  `fatal` models a failed `CHECK` (abort with a
diagnostic); `undef` models C++ undefined behaviour (out-of-bounds vector
write or null-pointer dereference). -/
inductive Outcome (α : Type) where
  | ok (val : α)
  | fatal (msg : String)
  | undef
deriving DecidableEq, Repr

/-- `GetCombinedPos`: 32-bit concatenation of the 16-bit POS ids. -/
def getCombinedPos (lid rid : Nat) : Nat := (lid <<< 16) ||| rid

/-- Combined POS of the token referenced by a `TokenInfo`. -/
def posOfToken (t : Token) : Nat := getCombinedPos t.lid t.rid

/-- Modelled from the spec: `Util::HiraganaToKatakana` (the character utility
is external to the builder source) is a fixed codepoint-range shift, moving
each hiragana codepoint to the corresponding katakana codepoint. -/
def hiraganaToKatakana (s : List Nat) : List Nat :=
  s.map fun c => if 0x3041 ≤ c ∧ c ≤ 0x3096 then c + 0x60 else c

/-- `GetValueType`: initial classification of a token's surface form. -/
def getValueType (token : Token) : ValueType :=
  if token.value = token.key then ValueType.AS_IS_HIRAGANA
  else if token.value = hiraganaToKatakana token.key then ValueType.AS_IS_KATAKANA
  else ValueType.DEFAULT_VALUE

/-- A fresh `TokenInfo` as produced in `ReadTokens`: `TokenInfo(token)` with
default annotations, then `value_type` set from `GetValueType`. -/
def initTokenInfo (t : Token) : TokenInfo :=
  { token := t
    id_in_value_trie := 0
    cost_type := CostType.DEFAULT_COST
    pos_type := PosType.DEFAULT_POS
    id_in_frequent_pos_map := 0
    value_type := getValueType t }

/-- The relation `std::stable_sort(..., TokenPtrLessThan())` sorts by:
`a` may precede `b` iff `b.key` is not strictly below `a.key`. -/
def tokenKeyLE (a b : Token) : Prop := strLe a.key b.key

instance : DecidableRel tokenKeyLE := fun a b => by
  unfold tokenKeyLE; infer_instance

instance : IsTotal Token tokenKeyLE where
  total a b := IsTotal.total (r := strLe) a.key b.key

instance : IsTrans Token tokenKeyLE where
  trans a b c hab hbc := IsTrans.trans (r := strLe) a.key b.key c.key hab hbc

/-- The `CHECK`s at the top of `ReadTokens`, walked in input order. -/
def checkTokens : List Token → Option String
  | [] => none
  | t :: rest =>
    if t.key = [] then some "empty key string in input"
    else if t.value = [] then some "empty value string in input"
    else checkTokens rest

/-- Step 1 of `ReadTokens`: stable sort of the token sequence by key. -/
def sortTokensByKey (tokens : List Token) : List Token :=
  tokens.insertionSort tokenKeyLE

/-- Step 2 of `ReadTokens`: walk the sorted sequence, starting a new `KeyInfo`
whenever the key differs from the accumulator's key, and appending a fresh
`TokenInfo` for every token. -/
def groupLoop : List Token → KeyInfo → List KeyInfo
  | [], last => [last]
  | t :: rest, last =>
    if last.key ≠ t.key then
      last :: groupLoop rest { key := t.key, id_in_key_trie := 0, tokens := [initTokenInfo t] }
    else
      groupLoop rest { last with tokens := last.tokens ++ [initTokenInfo t] }

/-- `SystemDictionaryBuilder::ReadTokens`. -/
def readTokens (tokens : List Token) : Outcome (List KeyInfo) :=
  match checkTokens tokens with
  | some msg => Outcome.fatal msg
  | none =>
    match sortTokensByKey tokens with
    | [] => Outcome.ok []
    | t :: rest =>
      Outcome.ok (groupLoop (t :: rest) { key := t.key, id_in_key_trie := 0, tokens := [] })

end MozcBuilder

namespace MozcBuilder

/-- Remove duplicates among equal adjacent elements.  On a sorted list this
yields the sorted list of distinct elements, i.e. the key column of a
`std::map` populated from the list. -/
def dedupAdj {α : Type} [DecidableEq α] : List α → List α
  | [] => []
  | [a] => [a]
  | a :: b :: rest => if a = b then dedupAdj (b :: rest) else a :: dedupAdj (b :: rest)

/-- Sorted list of the distinct elements of `l` (ascending). -/
def sortedKeysOf (l : List Nat) : List Nat := dedupAdj (l.insertionSort (· ≤ ·))

/-- Combined POS of every `TokenInfo` in the key-info list, in traversal
order (the multiset counted by `BuildFrequentPos`). -/
def posList (kil : List KeyInfo) : List Nat :=
  kil.flatMap fun ki => ki.tokens.map fun ti => posOfToken ti.token

/-- The `pos_map` of `BuildFrequentPos`: combined POS → multiplicity,
ascending by combined POS (a `std::map`). -/
def posMap (kil : List KeyInfo) : List (Nat × Nat) :=
  (sortedKeysOf (posList kil)).map fun p => (p, (posList kil).count p)

/-- The multiplicity column of `posMap`. -/
def freqList (kil : List KeyInfo) : List Nat := (posMap kil).map fun pr => pr.2

/-- The `freq_map` of `BuildFrequentPos`: multiplicity → number of combined
POS having that multiplicity, ascending by multiplicity (a `std::map`). -/
def freqMap (kil : List KeyInfo) : List (Nat × Nat) :=
  (sortedKeysOf (freqList kil)).map fun m => (m, (freqList kil).count m)

/-- `INT_MAX`, the initial value of `freq_threshold`. -/
def intMax : Nat := 2147483647

/-- The threshold loop of `BuildFrequentPos`: walk the histogram in
descending multiplicity; `break` as soon as adding a bucket would push the
cumulative count of selected POS past 255.  State: `(num_freq_pos,
freq_threshold)`. -/
def thresholdWalk : List (Nat × Nat) → Nat → Nat → Nat × Nat
  | [], num, thr => (num, thr)
  | (m, c) :: rest, num, thr =>
    if 255 < num + c then (num, thr) else thresholdWalk rest (num + c) m

/-- The histogram in descending multiplicity (reverse iteration of the
`std::map`). -/
def descBuckets (kil : List KeyInfo) : List (Nat × Nat) := (freqMap kil).reverse

/-- `(num_freq_pos, freq_threshold)` after the threshold loop. -/
def freqThresholdState (kil : List KeyInfo) : Nat × Nat :=
  thresholdWalk (descBuckets kil) 0 intMax

/-- `num_freq_pos` after the threshold loop. -/
def numFreqPos (kil : List KeyInfo) : Nat := (freqThresholdState kil).1

/-- `freq_threshold` after the threshold loop. -/
def freqThreshold (kil : List KeyInfo) : Nat := (freqThresholdState kil).2

/-- The collection loop of `BuildFrequentPos`: walk `pos_map` in ascending
combined-POS order and give each POS whose multiplicity reaches the
threshold the next dense id.  Represented as an association list
(combined POS, dense id), ascending by POS. -/
def frequentPos (kil : List KeyInfo) : List (Nat × Nat) :=
  ((((posMap kil).filter fun pr => freqThreshold kil ≤ pr.2).map fun pr => pr.1).enum).map
    fun pr => (pr.2, pr.1)

/-- External codecs (`SystemDictionaryCodecInterface`), modelled from the
spec: deterministic encoders for keys, values and token lists, plus the
tokens-termination flag byte. -/
structure Codec where
  encodeKey : List Nat → List Nat
  encodeValue : List Nat → List Nat
  encodeTokens : List TokenInfo → List Nat
  tokensTerminationFlag : Nat

/-- Modelled from the spec: the external LOUDS trie builder's `Build`.  The
contract only promises `GetId` on previously added strings; the model keeps
the sorted duplicate-free list of added strings. -/
def trieBuild (added : List (List Nat)) : List (List Nat) :=
  dedupAdj (added.insertionSort strLe)

/-- Modelled from the spec: the external LOUDS trie builder's `GetId`.  For a
string that was added, an id unique to it; for a string never added, the call
is outside the contract and the model returns a default (the size). -/
def trieGetId (built : List (List Nat)) (s : List Nat) : Nat :=
  built.indexOf s

/-- The strings added to the value-trie builder by `BuildValueTrie`
(AS_IS_HIRAGANA / AS_IS_KATAKANA values are skipped). -/
def buildValueTrieAdds (c : Codec) (kil : List KeyInfo) : List (List Nat) :=
  kil.flatMap fun ki =>
    (ki.tokens.filter fun ti =>
      !(ti.value_type == ValueType.AS_IS_HIRAGANA ||
        ti.value_type == ValueType.AS_IS_KATAKANA)).map
      fun ti => c.encodeValue ti.token.value

/-- The strings added to the key-trie builder by `BuildKeyTrie`. -/
def buildKeyTrieAdds (c : Codec) (kil : List KeyInfo) : List (List Nat) :=
  kil.map fun ki => c.encodeKey ki.key

/-- `SystemDictionaryBuilder::SetIdForValue`: for every `TokenInfo` (with no
regard to its `value_type`), re-encode the value and store the id returned by
the value trie. -/
def setIdForValue (c : Codec) (built : List (List Nat)) (kil : List KeyInfo) : List KeyInfo :=
  kil.map fun ki =>
    { ki with tokens := ki.tokens.map fun ti =>
        { ti with id_in_value_trie := trieGetId built (c.encodeValue ti.token.value) } }

/-- The arguments `SetIdForValue` passes to the value trie's `GetId`, in call
order. -/
def setIdForValueCalls (c : Codec) (kil : List KeyInfo) : List (List Nat) :=
  kil.flatMap fun ki => ki.tokens.map fun ti => c.encodeValue ti.token.value

/-- `SystemDictionaryBuilder::SetIdForKey`. -/
def setIdForKey (c : Codec) (built : List (List Nat)) (kil : List KeyInfo) : List KeyInfo :=
  kil.map fun ki => { ki with id_in_key_trie := trieGetId built (c.encodeKey ki.key) }

/-- The comparator `TokenGreaterThan`: descending by `lid`, then descending
by `rid`, then ascending by `id_in_value_trie`, then ascending by the token
attributes. -/
def tokenGreaterThan (lhs rhs : TokenInfo) : Bool :=
  if lhs.token.lid ≠ rhs.token.lid then rhs.token.lid < lhs.token.lid
  else if lhs.token.rid ≠ rhs.token.rid then rhs.token.rid < lhs.token.rid
  else if lhs.id_in_value_trie ≠ rhs.id_in_value_trie then
    lhs.id_in_value_trie < rhs.id_in_value_trie
  else lhs.token.attributes < rhs.token.attributes

/-- `std::sort` with comparator `cmp` guarantees exactly that no earlier
element is `cmp`-below a later one; this relation expresses it. -/
def tokenNotBelow (a b : TokenInfo) : Prop := tokenGreaterThan b a = false

instance : DecidableRel tokenNotBelow := fun a b => by
  unfold tokenNotBelow; infer_instance

/-- `SystemDictionaryBuilder::SortTokenInfo`. -/
def sortTokenInfo (kil : List KeyInfo) : List KeyInfo :=
  kil.map fun ki => { ki with tokens := ki.tokens.insertionSort tokenNotBelow }

/-- The scanning loop of `HasHomonymsInSamePos` with its running set of
combined POS already seen. -/
def homonymScan : List Nat → List TokenInfo → Bool
  | _, [] => false
  | seen, ti :: rest =>
    if seen.contains (posOfToken ti.token) then true
    else homonymScan (posOfToken ti.token :: seen) rest

/-- `HasHomonymsInSamePos`: true iff two `TokenInfo` of the group share a
combined POS (with the size-one early exit of the source). -/
def hasHomonymsInSamePos (ki : KeyInfo) : Bool :=
  if ki.tokens.length = 1 then false
  else homonymScan [] ki.tokens

/-- The per-token body of the `SetCostType` inner loop: mark the token when
its key length (`Util::CharsLen`) reaches the configured minimum. -/
def setCostStep (minKeyLen : Nat) (ti : TokenInfo) : TokenInfo :=
  if minKeyLen ≤ ti.token.key.length then
    { ti with cost_type := CostType.CAN_USE_SMALL_ENCODING }
  else ti

/-- `SetCostType` on one group: skip groups with POS homonyms, otherwise mark
every token whose key length reaches the configured minimum. -/
def setCostTypeKi (minKeyLen : Nat) (ki : KeyInfo) : KeyInfo :=
  if hasHomonymsInSamePos ki then ki
  else { ki with tokens := ki.tokens.map (setCostStep minKeyLen) }

/-- `SystemDictionaryBuilder::SetCostType`. -/
def setCostType (minKeyLen : Nat) (kil : List KeyInfo) : List KeyInfo :=
  kil.map (setCostTypeKi minKeyLen)

/-- `frequent_pos_.find(pos)` on the association list. -/
def findFrequentPos (fp : List (Nat × Nat)) (pos : Nat) : Option Nat :=
  (fp.find? fun pr => pr.1 == pos).map fun pr => pr.2

/-- One iteration of the `SetPosType` inner loop: mark a frequent POS (and
record its dense id), then overwrite with SAME_AS_PREV_POS when the previous
token of the group has the same combined POS. -/
def setPosStep (fp : List (Nat × Nat)) (prev : Option Token) (ti : TokenInfo) : TokenInfo :=
  let ti1 := match findFrequentPos fp (posOfToken ti.token) with
    | some idx =>
      { ti with pos_type := PosType.FREQUENT_POS, id_in_frequent_pos_map := idx }
    | none => ti
  match prev with
  | some pt =>
    if posOfToken pt = posOfToken ti.token then
      { ti1 with pos_type := PosType.SAME_AS_PREV_POS }
    else ti1
  | none => ti1

/-- The `SetPosType` inner loop, carrying the previous token of the group. -/
def setPosTypeTokens (fp : List (Nat × Nat)) : Option Token → List TokenInfo → List TokenInfo
  | _, [] => []
  | prev, ti :: rest => setPosStep fp prev ti :: setPosTypeTokens fp (some ti.token) rest

/-- `SystemDictionaryBuilder::SetPosType`. -/
def setPosType (fp : List (Nat × Nat)) (kil : List KeyInfo) : List KeyInfo :=
  kil.map fun ki => { ki with tokens := setPosTypeTokens fp none ki.tokens }

/-- One iteration of the `SetValueType` loop (which starts at index 1). -/
def setValueStep (prevValue : List Nat) (ti : TokenInfo) : TokenInfo :=
  if ti.value_type ≠ ValueType.AS_IS_HIRAGANA ∧ ti.value_type ≠ ValueType.AS_IS_KATAKANA ∧
      ti.token.value = prevValue then
    { ti with value_type := ValueType.SAME_AS_PREV_VALUE }
  else ti

/-- The `SetValueType` loop, carrying the previous token's value. -/
def setValueTypeTokens : Option (List Nat) → List TokenInfo → List TokenInfo
  | _, [] => []
  | none, ti :: rest => ti :: setValueTypeTokens (some ti.token.value) rest
  | some pv, ti :: rest => setValueStep pv ti :: setValueTypeTokens (some ti.token.value) rest

/-- `SystemDictionaryBuilder::SetValueType`. -/
def setValueType (kil : List KeyInfo) : List KeyInfo :=
  kil.map fun ki => { ki with tokens := setValueTypeTokens none ki.tokens }

/-- A left fold of indexed writes `acc[f b] := g b` (out-of-range writes are
dropped, as `List.set` drops them). -/
def foldlSet {α β : Type} (f : β → Nat) (g : β → α) (init : List α) (l : List β) : List α :=
  l.foldl (fun acc b => acc.set (f b) (g b)) init

/-- The reverse lookup table of `BuildTokenArray`:
`std::vector<const KeyInfo*>` of size `N`, initialised to null, then
`table[key_info.id_in_key_trie] = &key_info` for each group in order. -/
def buildIdTable (kil : List KeyInfo) : List (Option KeyInfo) :=
  foldlSet (fun ki => ki.id_in_key_trie) some (List.replicate kil.length none) kil

/-- Reading one slot of the reverse lookup table (dereferencing the stored
pointer); a null slot is undefined behaviour, handled by the caller. -/
def entryOfSlot (c : Codec) : Option KeyInfo → List Nat
  | some ki => c.encodeTokens ki.tokens
  | none => []

/-- `SystemDictionaryBuilder::BuildTokenArray`.  The source performs no
check: an id outside `[0, N)` is an out-of-bounds vector write and a slot
never written is a null-pointer dereference — both undefined behaviour,
modelled as `Outcome.undef`.  Otherwise every slot is encoded in id order and
a final single-byte entry (the tokens-termination flag) is appended. -/
def buildTokenArray (c : Codec) (kil : List KeyInfo) : Outcome (List (List Nat)) :=
  if kil.any fun ki => kil.length ≤ ki.id_in_key_trie then Outcome.undef
  else if (buildIdTable kil).any Option.isNone then Outcome.undef
  else Outcome.ok (((buildIdTable kil).map (entryOfSlot c)) ++ [[c.tokensTerminationFlag]])

/-- The `frequent_pos_array[256]` of `WriteToStream`: 256 32-bit words,
zero-initialised, then `array[dense id] = combined POS` for every entry of
the frequent-POS map in ascending POS order. -/
def freqPosArray (fp : List (Nat × Nat)) : List Nat :=
  foldlSet (fun pr => pr.2) (fun pr => pr.1) (List.replicate 256 0) fp

/-- The in-memory pipeline of `BuildFromTokens`, up to (and not including)
`BuildTokenArray`: produces the fully annotated key-info list and the
frequent-POS map.  The `CHECK` of `BuildFrequentPos` is taken fatally. -/
def buildFromTokens (c : Codec) (minKeyLen : Nat) (tokens : List Token) :
    Outcome (List KeyInfo × List (Nat × Nat)) :=
  match readTokens tokens with
  | Outcome.fatal msg => Outcome.fatal msg
  | Outcome.undef => Outcome.undef
  | Outcome.ok kil0 =>
    if (frequentPos kil0).length = numFreqPos kil0 then
      Outcome.ok
        (setValueType
          (setPosType (frequentPos kil0)
            (setCostType minKeyLen
              (sortTokenInfo
                (setIdForKey c (trieBuild (buildKeyTrieAdds c kil0))
                  (setIdForValue c (trieBuild (buildValueTrieAdds c kil0)) kil0))))),
         frequentPos kil0)
    else Outcome.fatal "inconsistent result to find frequent pos"

end MozcBuilder

namespace MozcBuilder

theorem mem_dedupAdj {α : Type} [DecidableEq α] {l : List α} {a : α} :
    a ∈ dedupAdj l ↔ a ∈ l := by
  induction l using dedupAdj.induct with
  | case1 => simp [dedupAdj]
  | case2 b => simp [dedupAdj]
  | case3 b rest ih =>
    simp only [dedupAdj, if_pos rfl] at *
    simp only [List.mem_cons] at *
    tauto
  | case4 b c rest hbc ih =>
    simp only [dedupAdj, if_neg hbc, List.mem_cons] at *
    tauto

theorem pairwise_lt_dedupAdj {l : List Nat} (h : l.Pairwise (· ≤ ·)) :
    (dedupAdj l).Pairwise (· < ·) := by
  induction l using dedupAdj.induct with
  | case1 => simp [dedupAdj]
  | case2 b => simp [dedupAdj]
  | case3 b rest ih =>
    simp only [dedupAdj, if_pos rfl]
    exact ih (List.Pairwise.sublist (List.sublist_cons_self b (b :: rest)) h)
  | case4 b c rest hbc ih =>
    simp only [dedupAdj, if_neg hbc]
    rcases h with _ | ⟨hb, htail⟩
    refine List.Pairwise.cons ?_ (ih htail)
    intro x hx
    have hxmem : x ∈ c :: rest := mem_dedupAdj.mp hx
    have hbc' : b < c := lt_of_le_of_ne (hb c (List.mem_cons_self c rest)) hbc
    rcases List.mem_cons.mp hxmem with hxc | hxr
    · exact hxc ▸ hbc'
    · rcases htail with _ | ⟨hc, _⟩
      exact lt_of_lt_of_le hbc' (hc x hxr)

theorem pairwise_le_insertionSortNat (l : List Nat) :
    (l.insertionSort (· ≤ ·)).Pairwise (· ≤ ·) :=
  List.sorted_insertionSort (· ≤ ·) l

theorem sortedKeysOf_pairwise (l : List Nat) : (sortedKeysOf l).Pairwise (· < ·) :=
  pairwise_lt_dedupAdj (pairwise_le_insertionSortNat l)

theorem mem_sortedKeysOf {l : List Nat} {a : Nat} : a ∈ sortedKeysOf l ↔ a ∈ l := by
  unfold sortedKeysOf
  rw [mem_dedupAdj]
  exact (List.perm_insertionSort (· ≤ ·) l).mem_iff

theorem sortedKeysOf_nodup (l : List Nat) : (sortedKeysOf l).Nodup :=
  (sortedKeysOf_pairwise l).imp ne_of_lt

theorem sortedKeysOf_toFinset (l : List Nat) : (sortedKeysOf l).toFinset = l.toFinset := by
  ext a
  simp [List.mem_toFinset, mem_sortedKeysOf]

end MozcBuilder

namespace MozcBuilder

theorem length_filter_eq_sum_count (l : List Nat) (p : Nat → Bool) :
    (l.filter p).length = ∑ a ∈ l.toFinset.filter (fun a => p a), l.count a := by
  rw [← List.sum_toFinset_count_eq_length (l.filter p), List.toFinset_filter]
  refine Finset.sum_congr rfl ?_
  intro a ha
  exact List.count_filter (Finset.mem_filter.mp ha).2

/-- Partition of a filtered length over the distinct values of the list. -/
theorem sum_counts_filtered (l : List Nat) (p : Nat → Bool) :
    (((sortedKeysOf l).filter p).map fun m => l.count m).sum = (l.filter p).length := by
  have hnd : ((sortedKeysOf l).filter p).Nodup := (sortedKeysOf_nodup l).filter p
  rw [← List.sum_toFinset (fun m => l.count m) hnd, List.toFinset_filter,
    sortedKeysOf_toFinset, length_filter_eq_sum_count]

/-- Spec-side description of the threshold loop of `BuildFrequentPos`: the
prefix of the descending histogram that the loop includes before breaking,
starting from a cumulative count `num`. -/
def fitPrefix : List (Nat × Nat) → Nat → List (Nat × Nat)
  | [], _ => []
  | (m, c) :: rest, num =>
    if 255 < num + c then [] else (m, c) :: fitPrefix rest (num + c)

theorem thresholdWalk_eq (l : List (Nat × Nat)) (num thr : Nat) :
    thresholdWalk l num thr =
      (num + ((fitPrefix l num).map fun pr => pr.2).sum,
       (((fitPrefix l num).getLast?).map fun pr => pr.1).getD thr) := by
  induction l generalizing num thr with
  | nil => simp [thresholdWalk, fitPrefix]
  | cons hd rest ih =>
    obtain ⟨m, c⟩ := hd
    by_cases hover : 255 < num + c
    · simp [thresholdWalk, fitPrefix, hover]
    · simp only [thresholdWalk, fitPrefix, if_neg hover]
      rw [ih]
      rcases hfit : fitPrefix rest (num + c) with _ | ⟨q, qs⟩
      · simp [Nat.add_assoc]
      · rw [List.getLast?_cons_cons, List.getLast?_eq_getLast (q :: qs) (by simp)]
        simp [Nat.add_assoc]

theorem fitPrefix_sum_le (l : List (Nat × Nat)) (num : Nat) (h : num ≤ 255) :
    num + ((fitPrefix l num).map fun pr => pr.2).sum ≤ 255 := by
  induction l generalizing num with
  | nil => simpa [fitPrefix]
  | cons hd rest ih =>
    obtain ⟨m, c⟩ := hd
    by_cases hover : 255 < num + c
    · simpa [fitPrefix, hover]
    · have := ih (num + c) (Nat.le_of_not_lt hover)
      simpa [fitPrefix, hover, Nat.add_assoc] using this

theorem fitPrefix_decomposition (l : List (Nat × Nat)) (num : Nat) :
    ∃ rest, l = fitPrefix l num ++ rest ∧
      ∀ pr, rest.head? = some pr →
        255 < num + ((fitPrefix l num).map fun pr => pr.2).sum + pr.2 := by
  induction l generalizing num with
  | nil => exact ⟨[], by simp [fitPrefix]⟩
  | cons hd rest ih =>
    obtain ⟨m, c⟩ := hd
    by_cases hover : 255 < num + c
    · refine ⟨(m, c) :: rest, ?_, ?_⟩
      · simp [fitPrefix, hover]
      · intro pr hpr
        simp only [fitPrefix, if_pos hover, List.map_nil, List.sum_nil, Nat.add_zero] at hpr ⊢
        simp only [List.head?_cons, Option.some.injEq] at hpr
        subst hpr
        exact hover
    · obtain ⟨r, hr, hhead⟩ := ih (num + c)
      refine ⟨r, ?_, ?_⟩
      · simp [fitPrefix, hover, ← hr]
      · intro pr hpr
        have := hhead pr hpr
        simpa [fitPrefix, hover, Nat.add_assoc] using this

end MozcBuilder

namespace MozcBuilder

theorem posMap_entry {kil : List KeyInfo} {pr : Nat × Nat} (h : pr ∈ posMap kil) :
    pr.1 ∈ posList kil ∧ pr.2 = (posList kil).count pr.1 := by
  unfold posMap at h
  obtain ⟨p, hp, hpr⟩ := List.mem_map.mp h
  subst hpr
  exact ⟨mem_sortedKeysOf.mp hp, rfl⟩

theorem mem_posMap_of {kil : List KeyInfo} {p : Nat} (h : p ∈ posList kil) :
    (p, (posList kil).count p) ∈ posMap kil := by
  unfold posMap
  exact List.mem_map.mpr ⟨p, mem_sortedKeysOf.mpr h, rfl⟩

theorem freqMap_mult_lt {kil : List KeyInfo}
    (hsize : (posList kil).length < intMax) {pr : Nat × Nat}
    (h : pr ∈ freqMap kil) : pr.1 < intMax := by
  unfold freqMap at h
  obtain ⟨m, hm, hpr⟩ := List.mem_map.mp h
  have hmem : m ∈ freqList kil := mem_sortedKeysOf.mp hm
  unfold freqList at hmem
  obtain ⟨q, hq, hq2⟩ := List.mem_map.mp hmem
  have := posMap_entry hq
  have hle : m ≤ (posList kil).length := by
    rw [← hq2, this.2]
    exact List.count_le_length _ _
  exact lt_of_le_of_lt (hpr ▸ hle) hsize

theorem posMap_pairwise (kil : List KeyInfo) :
    (posMap kil).Pairwise fun a b => a.1 < b.1 := by
  unfold posMap
  exact List.pairwise_map.mpr (sortedKeysOf_pairwise _)

theorem freqMap_pairwise (kil : List KeyInfo) :
    (freqMap kil).Pairwise fun a b => a.1 < b.1 := by
  unfold freqMap
  exact List.pairwise_map.mpr (sortedKeysOf_pairwise _)

theorem descBuckets_pairwise (kil : List KeyInfo) :
    (descBuckets kil).Pairwise fun a b => b.1 < a.1 := by
  unfold descBuckets
  exact List.pairwise_reverse.mpr (freqMap_pairwise kil)

theorem numFreqPos_eq (kil : List KeyInfo) :
    numFreqPos kil = ((fitPrefix (descBuckets kil) 0).map fun pr => pr.2).sum := by
  unfold numFreqPos freqThresholdState
  rw [thresholdWalk_eq]
  simp

theorem freqThreshold_eq (kil : List KeyInfo) :
    freqThreshold kil =
      (((fitPrefix (descBuckets kil) 0).getLast?).map fun pr => pr.1).getD intMax := by
  unfold freqThreshold freqThresholdState
  rw [thresholdWalk_eq]

theorem getLast_fst_le {P : List (Nat × Nat)} (hP : P.Pairwise fun a b => b.1 < a.1)
    {pr : Nat × Nat} (hpr : pr ∈ P) (x : Nat) :
    ((P.getLast?.map fun q => q.1).getD x) ≤ pr.1 := by
  induction P with
  | nil => cases hpr
  | cons a rest ih =>
    rcases rest with _ | ⟨b, bs⟩
    · rcases List.mem_singleton.mp hpr with rfl
      simp
    · rcases hP with _ | ⟨ha, htail⟩
      rw [List.getLast?_cons_cons]
      rcases List.mem_cons.mp hpr with rfl | hmem
      · have hlast : (b :: bs).getLast (by simp) ∈ b :: bs := List.getLast_mem _
        have hlt := ha _ hlast
        rw [List.getLast?_eq_getLast (b :: bs) (by simp)]
        exact le_of_lt hlt
      · exact ih htail hmem

theorem filter_ge_getLast {D P rest : List (Nat × Nat)}
    (hpair : D.Pairwise fun a b => b.1 < a.1) (hdec : D = P ++ rest) (bound : Nat)
    (hbound : ∀ pr ∈ D, pr.1 < bound) :
    D.reverse.filter (fun pr => ((P.getLast?.map fun q => q.1).getD bound) ≤ pr.1) =
      P.reverse := by
  have hpairP : P.Pairwise fun a b => b.1 < a.1 := by
    refine List.Pairwise.sublist ?_ (hdec ▸ hpair)
    exact List.sublist_append_left _ _
  have hPtrue : ∀ pr ∈ P, ((P.getLast?.map fun q => q.1).getD bound) ≤ pr.1 :=
    fun pr hpr => getLast_fst_le hpairP hpr bound
  have hRfalse : ∀ pr ∈ rest, pr.1 < ((P.getLast?.map fun q => q.1).getD bound) := by
    intro pr hpr
    rcases P with _ | ⟨q, qs⟩
    · simpa using hbound pr (by simp [hdec, hpr])
    · have hcross := (List.pairwise_append.mp (hdec ▸ hpair)).2.2
      have hlastmem : (q :: qs).getLast (by simp) ∈ q :: qs := List.getLast_mem _
      have hlt := hcross _ hlastmem pr hpr
      rw [List.getLast?_eq_getLast (q :: qs) (by simp)]
      simpa using hlt
  rw [hdec, List.reverse_append, List.filter_append]
  rw [List.filter_eq_nil_iff.mpr ?hnil, List.filter_eq_self.mpr ?hself]
  · simp
  case hnil =>
    intro pr hpr
    have := hRfalse pr (List.mem_reverse.mp hpr)
    simpa using Nat.not_le.mpr this
  case hself =>
    intro pr hpr
    simpa using hPtrue pr (List.mem_reverse.mp hpr)

theorem freqMap_filter_eq (kil : List KeyInfo)
    (hsize : (posList kil).length < intMax) :
    (freqMap kil).filter (fun pr => freqThreshold kil ≤ pr.1) =
      (fitPrefix (descBuckets kil) 0).reverse := by
  obtain ⟨rest, hdec, hhead⟩ := fitPrefix_decomposition (descBuckets kil) 0
  have hbound : ∀ pr ∈ descBuckets kil, pr.1 < intMax := by
    intro pr hpr
    exact freqMap_mult_lt hsize (List.mem_reverse.mp (by simpa [descBuckets] using hpr))
  have hmain := filter_ge_getLast (descBuckets_pairwise kil) hdec intMax hbound
  have hrev : (descBuckets kil).reverse = freqMap kil := by
    unfold descBuckets
    exact List.reverse_reverse _
  rw [hrev] at hmain
  rw [freqThreshold_eq]
  exact hmain

end MozcBuilder

namespace MozcBuilder

theorem frequentPos_length_eq (kil : List KeyInfo)
    (hsize : (posList kil).length < intMax) :
    (frequentPos kil).length = numFreqPos kil := by
  have hlen : (frequentPos kil).length =
      ((posMap kil).filter fun pr => freqThreshold kil ≤ pr.2).length := by
    simp [frequentPos]
  rw [hlen, ← List.countP_eq_length_filter]
  have hcntP : (List.countP (fun pr => freqThreshold kil ≤ pr.2) (posMap kil)) =
      List.countP (fun x => freqThreshold kil ≤ x) (freqList kil) := by
    unfold freqList
    rw [List.countP_map]
    rfl
  rw [hcntP, List.countP_eq_length_filter, ← sum_counts_filtered]
  have hfm : (((freqMap kil).filter fun pr => freqThreshold kil ≤ pr.1).map fun pr => pr.2) =
      (((sortedKeysOf (freqList kil)).filter fun m => freqThreshold kil ≤ m).map
        fun m => (freqList kil).count m) := by
    unfold freqMap
    rw [List.filter_map, List.map_map]
    rfl
  rw [← hfm, freqMap_filter_eq kil hsize, List.map_reverse, List.sum_reverse,
    numFreqPos_eq]

theorem frequentPos_length_le (kil : List KeyInfo)
    (hsize : (posList kil).length < intMax) :
    (frequentPos kil).length ≤ 255 := by
  rw [frequentPos_length_eq kil hsize, numFreqPos_eq]
  have := fitPrefix_sum_le (descBuckets kil) 0 (by norm_num)
  simpa using this

theorem map_fst_frequentPos (kil : List KeyInfo) :
    (frequentPos kil).map (fun pr => pr.1) =
      ((posMap kil).filter fun pr => freqThreshold kil ≤ pr.2).map fun pr => pr.1 := by
  unfold frequentPos
  rw [List.map_map]
  exact List.enum_map_snd _

theorem mem_frequentPos_iff (kil : List KeyInfo) (p : Nat) :
    (∃ d, (p, d) ∈ frequentPos kil) ↔
      p ∈ posList kil ∧ freqThreshold kil ≤ (posList kil).count p := by
  have hmem : (∃ d, (p, d) ∈ frequentPos kil) ↔
      p ∈ (frequentPos kil).map fun pr => pr.1 := by
    constructor
    · rintro ⟨d, hd⟩
      exact List.mem_map.mpr ⟨(p, d), hd, rfl⟩
    · intro hp
      obtain ⟨pr, hpr, hfst⟩ := List.mem_map.mp hp
      refine ⟨pr.2, ?_⟩
      rw [← hfst, Prod.mk.eta]
      exact hpr
  rw [hmem, map_fst_frequentPos]
  constructor
  · intro hp
    obtain ⟨pr, hpr, hfst⟩ := List.mem_map.mp hp
    obtain ⟨hmemMap, hthr⟩ := List.mem_filter.mp hpr
    obtain ⟨hmempl, hcnt⟩ := posMap_entry hmemMap
    refine ⟨hfst ▸ hmempl, ?_⟩
    rw [← hfst, ← hcnt]
    exact Nat.le_of_ble_eq_true (by simpa using hthr)
  · rintro ⟨hmempl, hthr⟩
    refine List.mem_map.mpr ⟨(p, (posList kil).count p), ?_, rfl⟩
    exact List.mem_filter.mpr ⟨mem_posMap_of hmempl, by simpa using hthr⟩

end MozcBuilder

namespace MozcBuilder

/-- A token whose combined POS is `p` (lid 0, rid `p`). -/
def c1Token (p : Nat) : Token :=
  { key := [1], value := [2], lid := 0, rid := p, cost := 0, attributes := 0 }

/-- Counterexample input for C1: one key group whose tokens realise combined
POS `0..255` twice each and combined POS `256` once, so the multiplicity
histogram is `[(1, 1), (2, 256)]` (ascending). -/
def c1kil : List KeyInfo :=
  [{ key := [1], id_in_key_trie := 0,
     tokens := (List.range 257).flatMap fun p =>
       List.replicate (if p < 256 then 2 else 1) (initTokenInfo (c1Token p)) }]

/-- One-group input used to witness the frequent-POS theorem. -/
def c1witKil : List KeyInfo :=
  [{ key := [5], id_in_key_trie := 0, tokens := [initTokenInfo (c1Token 7)] }]

set_option maxRecDepth 40000 in
/-- C1, refuted as stated: on `c1kil` the descending histogram walk meets a
first bucket of 256 POS (multiplicity 2), whose inclusion would exceed 255,
followed by a bucket of one POS (multiplicity 1) whose inclusion would keep
the cumulative count at `0 + 1 ≤ 255`.  By the claim that bucket is included,
so the POS of multiplicity 1 belongs to the frequent-POS map; the source
instead `break`s at the first rejected bucket and the map stays empty. -/
theorem c1_greedy_inclusion_refuted :
    descBuckets c1kil = [(2, 256), (1, 1)] ∧
    (posList c1kil).count 256 = 1 ∧
    frequentPos c1kil = [] := by
  decide

/-- C1 (amended): the threshold loop includes the maximal prefix of the
descending multiplicity histogram whose cumulative POS count fits in 255 — a
boundary bucket is rejected whole, and after the first rejected bucket no
later bucket is reconsidered even if it would fit.  The threshold is the
smallest included multiplicity (`INT_MAX` when no bucket is included).  The
frequent-POS map has at most 255 entries (exactly `num_freq_pos`, so the
source's `CHECK` passes) and contains exactly the combined POS whose
multiplicity reaches the threshold. -/
theorem c1_frequent_pos_selection (kil : List KeyInfo)
    (hsize : (posList kil).length < intMax) :
    (frequentPos kil).length ≤ 255 ∧
    (frequentPos kil).length = numFreqPos kil ∧
    (∃ rest, descBuckets kil = fitPrefix (descBuckets kil) 0 ++ rest ∧
       ∀ pr, rest.head? = some pr → 255 < numFreqPos kil + pr.2) ∧
    freqThreshold kil =
      (((fitPrefix (descBuckets kil) 0).getLast?).map fun pr => pr.1).getD intMax ∧
    (∀ p, (∃ d, (p, d) ∈ frequentPos kil) ↔
       p ∈ posList kil ∧ freqThreshold kil ≤ (posList kil).count p) := by
  refine ⟨frequentPos_length_le kil hsize, frequentPos_length_eq kil hsize, ?_,
    freqThreshold_eq kil, mem_frequentPos_iff kil⟩
  obtain ⟨rest, hdec, hhead⟩ := fitPrefix_decomposition (descBuckets kil) 0
  refine ⟨rest, hdec, ?_⟩
  intro pr hpr
  have := hhead pr hpr
  rw [numFreqPos_eq]
  omega

/-- Witness for `c1_frequent_pos_selection` at a one-token input. -/
theorem c1_frequent_pos_selection_witness :
    (posList c1witKil).length < intMax ∧
    (frequentPos c1witKil).length ≤ 255 ∧ (∃ d, (7, d) ∈ frequentPos c1witKil) :=
  ⟨by decide, (c1_frequent_pos_selection c1witKil (by decide)).1,
    ((c1_frequent_pos_selection c1witKil (by decide)).2.2.2.2 7).mpr
      ⟨by decide, by decide⟩⟩

end MozcBuilder

namespace MozcBuilder

theorem foldlSet_length {α β : Type} (f : β → Nat) (g : β → α) (init : List α)
    (l : List β) : (foldlSet f g init l).length = init.length := by
  induction l generalizing init with
  | nil => rfl
  | cons b l ih =>
    unfold foldlSet at *
    simp only [List.foldl_cons]
    rw [ih, List.length_set]

theorem foldlSet_getElem? {α β : Type} (f : β → Nat) (g : β → α) (init : List α)
    (l : List β) (i : Nat) :
    (foldlSet f g init l)[i]? =
      match (l.filter fun b => f b == i).getLast? with
      | some b => if i < init.length then some (g b) else none
      | none => init[i]? := by
  induction l generalizing init with
  | nil => simp [foldlSet]
  | cons b l ih =>
    have hstep : foldlSet f g init (b :: l) = foldlSet f g (init.set (f b) (g b)) l := rfl
    rw [hstep, ih]
    by_cases hfb : f b = i
    · subst hfb
      have hfil : ((b :: l).filter fun x => f x == f b) =
          b :: (l.filter fun x => f x == f b) := by
        simp [List.filter_cons]
      cases hfl : (l.filter fun x => f x == f b) with
      | nil =>
        rw [hfil, hfl]
        simp only [List.getLast?_nil, List.getLast?_singleton]
        rw [List.getElem?_set]
        simp
      | cons q qs =>
        rw [hfil, hfl, List.getLast?_cons_cons]
        cases hlast : (q :: qs).getLast? with
        | none => simp at hlast
        | some b' => simp [List.length_set]
    · have hfil : ((b :: l).filter fun x => f x == i) = l.filter fun x => f x == i := by
        simp [List.filter_cons, hfb]
      rw [hfil]
      cases hlast : (l.filter fun x => f x == i).getLast? with
      | none => exact List.getElem?_set_ne hfb
      | some b' => simp [List.length_set]

theorem filter_key_eq_singleton {α : Type} {l : List α} {f : α → Nat}
    (hnd : (l.map f).Nodup) {a : α} (ha : a ∈ l) :
    (l.filter fun b => f b == f a) = [a] := by
  induction l with
  | nil => cases ha
  | cons x l ih =>
    simp only [List.map_cons, List.nodup_cons] at hnd
    rcases List.mem_cons.mp ha with rfl | hmem
    · have hrest : (l.filter fun b => f b == f a) = [] := by
        rw [List.filter_eq_nil_iff]
        intro b hb
        simp only [beq_iff_eq]
        intro hcon
        exact hnd.1 (hcon ▸ List.mem_map_of_mem f hb)
      simp [List.filter_cons, hrest]
    · have hfx : ¬(f x == f a) = true := by
        simp only [beq_iff_eq]
        intro hcon
        exact hnd.1 (hcon ▸ List.mem_map_of_mem f hmem)
      simpa [List.filter_cons, hfx] using ih hnd.2 hmem

end MozcBuilder

namespace MozcBuilder

theorem frequentPos_ids (kil : List KeyInfo) :
    ((frequentPos kil).map fun pr => pr.2) = List.range (frequentPos kil).length := by
  unfold frequentPos
  rw [List.map_map, List.length_map]
  have h1 : ((fun pr : Nat × Nat => pr.2) ∘ fun pr : Nat × Nat => (pr.2, pr.1)) =
      Prod.fst := rfl
  rw [h1, List.enum_map_fst, List.enum_length]

theorem frequentPos_fst_pairwise (kil : List KeyInfo) :
    ((frequentPos kil).map fun pr => pr.1).Pairwise (· < ·) := by
  rw [map_fst_frequentPos]
  refine List.pairwise_map.mpr ?_
  exact List.Pairwise.filter _ (posMap_pairwise kil)

theorem posList_mem_shape {kil : List KeyInfo} {p : Nat} (h : p ∈ posList kil) :
    ∃ ki ∈ kil, ∃ ti ∈ ki.tokens, p = posOfToken ti.token := by
  unfold posList at h
  obtain ⟨ki, hki, hmem⟩ := List.mem_flatMap.mp h
  obtain ⟨ti, hti, hp⟩ := List.mem_map.mp hmem
  exact ⟨ki, hki, ti, hti, hp.symm⟩

theorem mem_foldlSet {α β : Type} {x : α} (f : β → Nat) (g : β → α) (init : List α)
    (l : List β) (h : x ∈ foldlSet f g init l) : x ∈ init ∨ ∃ b ∈ l, x = g b := by
  induction l generalizing init with
  | nil => exact Or.inl h
  | cons b l ih =>
    have hstep : foldlSet f g init (b :: l) = foldlSet f g (init.set (f b) (g b)) l := rfl
    rw [hstep] at h
    rcases ih _ h with hmem | ⟨b', hb', hx⟩
    · rcases List.mem_or_eq_of_mem_set hmem with hmem' | rfl
      · exact Or.inl hmem'
      · exact Or.inr ⟨b, List.mem_cons_self b l, rfl⟩
    · exact Or.inr ⟨b', List.mem_cons_of_mem b hb', hx⟩

theorem getCombinedPos_lt {lid rid : Nat} (h1 : lid < 65536) (h2 : rid < 65536) :
    getCombinedPos lid rid < 2 ^ 32 := by
  unfold getCombinedPos
  refine Nat.or_lt_two_pow ?_ ?_
  · rw [Nat.shiftLeft_eq]
    have h16 : (2 : Nat) ^ 16 = 65536 := by norm_num
    have h32 : (2 : Nat) ^ 32 = 4294967296 := by norm_num
    rw [h16, h32]
    have : lid * 65536 ≤ 65535 * 65536 := Nat.mul_le_mul_right 65536 (by omega)
    omega
  · have h32 : (2 : Nat) ^ 32 = 4294967296 := by norm_num
    omega

/-- C8 (confirmed): the frequent-POS side table is exactly 256 32-bit words;
slot `d` holds the combined POS with dense id `d` and all other slots are
zero; dense ids `0..k-1` are assigned in ascending order of the combined POS
key. -/
theorem c8_frequent_pos_table (kil : List KeyInfo)
    (hsize : (posList kil).length < intMax)
    (hbits : ∀ ki ∈ kil, ∀ ti ∈ ki.tokens, ti.token.lid < 65536 ∧ ti.token.rid < 65536) :
    (freqPosArray (frequentPos kil)).length = 256 ∧
    ((frequentPos kil).map fun pr => pr.2) = List.range (frequentPos kil).length ∧
    ((frequentPos kil).map fun pr => pr.1).Pairwise (· < ·) ∧
    (∀ pr ∈ frequentPos kil, (freqPosArray (frequentPos kil))[pr.2]? = some pr.1) ∧
    (∀ d, d < 256 → (∀ pr ∈ frequentPos kil, pr.2 ≠ d) →
      (freqPosArray (frequentPos kil))[d]? = some 0) ∧
    (∀ x ∈ freqPosArray (frequentPos kil), x < 2 ^ 32) := by
  have hlen255 := frequentPos_length_le kil hsize
  have hids := frequentPos_ids kil
  have hnd : ((frequentPos kil).map fun pr => pr.2).Nodup := by
    rw [hids]
    exact List.nodup_range _
  refine ⟨?_, hids, frequentPos_fst_pairwise kil, ?_, ?_, ?_⟩
  · rw [freqPosArray, foldlSet_length, List.length_replicate]
  · intro pr hpr
    have hid_lt : pr.2 < 256 := by
      have : pr.2 ∈ (frequentPos kil).map fun pr => pr.2 :=
        List.mem_map.mpr ⟨pr, hpr, rfl⟩
      rw [hids] at this
      have := List.mem_range.mp this
      omega
    rw [freqPosArray, foldlSet_getElem?, filter_key_eq_singleton hnd hpr]
    simp only [List.getLast?_singleton, List.length_replicate]
    exact if_pos hid_lt
  · intro d hd hnone
    rw [freqPosArray, foldlSet_getElem?]
    have hfil : ((frequentPos kil).filter fun pr => pr.2 == d) = [] := by
      rw [List.filter_eq_nil_iff]
      intro pr hpr
      simpa using hnone pr hpr
    rw [hfil]
    simp only [List.getLast?_nil, List.getElem?_replicate]
    exact if_pos hd
  · intro x hx
    rcases mem_foldlSet _ _ _ _ hx with hmem | ⟨pr, hpr, rfl⟩
    · have := List.eq_of_mem_replicate hmem
      subst this
      norm_num
    · have hp : (∃ d, (pr.1, d) ∈ frequentPos kil) := by
        refine ⟨pr.2, ?_⟩
        rw [Prod.mk.eta]
        exact hpr
      have hmempl := ((mem_frequentPos_iff kil pr.1).mp hp).1
      obtain ⟨ki, hki, ti, hti, hshape⟩ := posList_mem_shape hmempl
      obtain ⟨hl, hr⟩ := hbits ki hki ti hti
      rw [hshape]
      exact getCombinedPos_lt hl hr

/-- Witness for `c8_frequent_pos_table` at a one-token input. -/
theorem c8_frequent_pos_table_witness :
    (freqPosArray (frequentPos c1witKil)).length = 256 ∧
    ((frequentPos c1witKil).map fun pr => pr.2) = List.range (frequentPos c1witKil).length :=
  ⟨(c8_frequent_pos_table c1witKil (by decide) (by decide)).1,
   (c8_frequent_pos_table c1witKil (by decide) (by decide)).2.1⟩

end MozcBuilder

namespace MozcBuilder

/-- The precondition `BuildTokenArray` assumes (source comment: ids are
"unique and successive"): the recorded key-trie ids form a permutation of
`[0, N)`. -/
def idsPerm (kil : List KeyInfo) : Prop :=
  (kil.map fun ki => ki.id_in_key_trie).Perm (List.range kil.length)

instance (kil : List KeyInfo) : Decidable (idsPerm kil) := by
  unfold idsPerm; infer_instance

theorem buildIdTable_length (kil : List KeyInfo) :
    (buildIdTable kil).length = kil.length := by
  rw [buildIdTable, foldlSet_length, List.length_replicate]

theorem buildIdTable_getElem? (kil : List KeyInfo) (i : Nat) (h : i < kil.length) :
    (buildIdTable kil)[i]? =
      match (kil.filter fun ki => ki.id_in_key_trie == i).getLast? with
      | some ki => some (some ki)
      | none => some none := by
  rw [buildIdTable, foldlSet_getElem?]
  cases hlast : (kil.filter fun ki => ki.id_in_key_trie == i).getLast? with
  | none => simp [List.getElem?_replicate, h]
  | some ki => simp [List.length_replicate, h]

theorem listRange_toFinset (n : Nat) : (List.range n).toFinset = Finset.range n := by
  ext a
  simp [List.mem_toFinset, List.mem_range, Finset.mem_range]

/-- If every slot of the reverse lookup table is filled, the recorded ids are
a permutation of `[0, N)`. -/
theorem idsPerm_of_table_filled (kil : List KeyInfo)
    (hlt : ∀ ki ∈ kil, ki.id_in_key_trie < kil.length)
    (hfill : ∀ i, i < kil.length →
      (kil.filter fun ki => ki.id_in_key_trie == i) ≠ []) :
    idsPerm kil := by
  have hcover : ∀ i < kil.length, i ∈ kil.map fun ki => ki.id_in_key_trie := by
    intro i hi
    rcases hfil : kil.filter fun ki => ki.id_in_key_trie == i with _ | ⟨ki, rest⟩
    · exact absurd hfil (hfill i hi)
    · have hki : ki ∈ kil.filter fun ki => ki.id_in_key_trie == i := by
        rw [hfil]; exact List.mem_cons_self _ _
      have := List.mem_filter.mp hki
      exact List.mem_map.mpr ⟨ki, this.1, by simpa using this.2⟩
  have hsub : Finset.range kil.length ⊆
      (kil.map fun ki => ki.id_in_key_trie).toFinset := by
    intro i hi
    exact List.mem_toFinset.mpr (hcover i (Finset.mem_range.mp hi))
  have hsub' : (kil.map fun ki => ki.id_in_key_trie).toFinset ⊆
      Finset.range kil.length := by
    intro i hi
    obtain ⟨ki, hki, hid⟩ := List.mem_map.mp (List.mem_toFinset.mp hi)
    exact Finset.mem_range.mpr (hid ▸ hlt ki hki)
  have hlen : (kil.map fun ki => ki.id_in_key_trie).length = kil.length :=
    List.length_map _ _
  have hcard : (kil.map fun ki => ki.id_in_key_trie).toFinset.card = kil.length := by
    have h1 := Finset.card_le_card hsub
    have h2 := List.toFinset_card_le (kil.map fun ki => ki.id_in_key_trie)
    rw [Finset.card_range] at h1
    rw [hlen] at h2
    omega
  have hnodup : (kil.map fun ki => ki.id_in_key_trie).Nodup := by
    have hd := List.card_toFinset (kil.map fun ki => ki.id_in_key_trie)
    rw [hcard] at hd
    have hsubl := List.dedup_sublist (kil.map fun ki => ki.id_in_key_trie)
    have := hsubl.eq_of_length (by omega)
    rw [← this]
    exact List.nodup_dedup _
  have heq : (kil.map fun ki => ki.id_in_key_trie).toFinset =
      (List.range kil.length).toFinset := by
    rw [listRange_toFinset]
    refine Finset.Subset.antisymm hsub' hsub
  exact List.perm_of_nodup_nodup_toFinset_eq hnodup (List.nodup_range _) heq

/-- Under the permutation precondition, the slot of every id holds exactly
the key-info recorded with that id. -/
theorem buildIdTable_slot (kil : List KeyInfo) (hperm : idsPerm kil)
    {ki : KeyInfo} (hki : ki ∈ kil) :
    (buildIdTable kil)[ki.id_in_key_trie]? = some (some ki) := by
  have hnd : (kil.map fun ki => ki.id_in_key_trie).Nodup :=
    hperm.nodup_iff.mpr (List.nodup_range _)
  have hlt : ki.id_in_key_trie < kil.length := by
    have : ki.id_in_key_trie ∈ kil.map fun ki => ki.id_in_key_trie :=
      List.mem_map.mpr ⟨ki, hki, rfl⟩
    exact List.mem_range.mp (hperm.mem_iff.mp this)
  rw [buildIdTable_getElem? kil _ hlt, filter_key_eq_singleton hnd hki]
  simp

end MozcBuilder

namespace MozcBuilder

/-- A concrete codec instance used for witnesses: identity encoders and a
length-based token encoding. -/
def modelCodec : Codec :=
  { encodeKey := fun s => s
    encodeValue := fun s => s
    encodeTokens := fun l => [l.length]
    tokensTerminationFlag := 255 }

/-- Two key groups recorded with the same key-trie id: not a permutation. -/
def c2kil : List KeyInfo :=
  [{ key := [1], id_in_key_trie := 0, tokens := [] },
   { key := [2], id_in_key_trie := 0, tokens := [] }]

/-- Key groups whose ids `[1, 0]` are a permutation of `[0, 2)`. -/
def c3kil : List KeyInfo :=
  [{ key := [1], id_in_key_trie := 1, tokens := [] },
   { key := [2], id_in_key_trie := 0, tokens := [] }]

/-- C2, refuted as stated: on duplicate key-trie ids (not a permutation,
first conjunct) `BuildTokenArray` does not abort with an internal-error
diagnostic — the source performs no check (its comment only *assumes* the ids
are unique and successive), dereferences the never-written null slot, and the
build ends in undefined behaviour (`Outcome.undef`, second conjunct), which
is a different constructor from every `Outcome.fatal msg`. -/
theorem c2_internal_error_refuted :
    decide (idsPerm c2kil) = false ∧
      buildTokenArray modelCodec c2kil = Outcome.undef := by
  exact ⟨by decide, by decide⟩

/-- C2 (amended): `BuildTokenArray` performs no permutation check.  When the
recorded ids are not a permutation of `[0, N)` the function hits undefined
behaviour — an out-of-bounds vector write for an id `≥ N`, or a null-pointer
dereference for a slot no id maps to — instead of emitting a token array or
aborting with a diagnostic. -/
theorem c2_no_permutation_undefined (c : Codec) (kil : List KeyInfo)
    (h : ¬ idsPerm kil) : buildTokenArray c kil = Outcome.undef := by
  by_cases hoob : (kil.any fun ki => kil.length ≤ ki.id_in_key_trie) = true
  · rw [buildTokenArray, if_pos hoob]
  · have hlt : ∀ ki ∈ kil, ki.id_in_key_trie < kil.length := by
      intro ki hki
      have hall := List.any_eq_false.mp (Bool.eq_false_iff.mpr hoob) ki hki
      simpa using hall
    have hfill : ∃ i, i < kil.length ∧
        (kil.filter fun ki => ki.id_in_key_trie == i) = [] := by
      by_contra hcon
      push_neg at hcon
      exact h (idsPerm_of_table_filled kil hlt hcon)
    obtain ⟨i, hi, hfil⟩ := hfill
    have hslotnone : (buildIdTable kil)[i]? = some none := by
      rw [buildIdTable_getElem? kil i hi, hfil]
      rfl
    have hanynone : (buildIdTable kil).any Option.isNone = true := by
      rw [List.any_eq_true]
      exact ⟨none, List.mem_iff_getElem?.mpr ⟨i, hslotnone⟩, rfl⟩
    rw [buildTokenArray, if_neg hoob, if_pos hanynone]

/-- Witness for `c2_no_permutation_undefined` at the duplicate-id input. -/
theorem c2_no_permutation_undefined_witness :
    ¬ idsPerm c2kil ∧ buildTokenArray modelCodec c2kil = Outcome.undef :=
  ⟨by decide, c2_no_permutation_undefined modelCodec c2kil (by decide)⟩

/-- C3 (confirmed): under the permutation precondition the emitter produces
exactly `N + 1` entries — for each id `i` in increasing order the token-codec
encoding of the token list of the key-info recorded with id `i`, then one
final entry holding the single tokens-termination byte. -/
theorem c3_token_array_emission (c : Codec) (kil : List KeyInfo)
    (hperm : idsPerm kil) :
    ∃ entries, buildTokenArray c kil = Outcome.ok entries ∧
      entries.length = kil.length + 1 ∧
      entries.getLast? = some [c.tokensTerminationFlag] ∧
      ∀ ki ∈ kil, entries[ki.id_in_key_trie]? = some (c.encodeTokens ki.tokens) := by
  have hlt : ∀ ki ∈ kil, ki.id_in_key_trie < kil.length := by
    intro ki hki
    have hmem : ki.id_in_key_trie ∈ kil.map fun ki => ki.id_in_key_trie :=
      List.mem_map.mpr ⟨ki, hki, rfl⟩
    exact List.mem_range.mp (hperm.mem_iff.mp hmem)
  have hoob : (kil.any fun ki => kil.length ≤ ki.id_in_key_trie) = false := by
    rw [List.any_eq_false]
    intro ki hki
    simpa using Nat.not_le.mpr (hlt ki hki)
  have hslot : ∀ j, j < kil.length →
      ∃ ki ∈ kil, (buildIdTable kil)[j]? = some (some ki) := by
    intro j hj
    have hmem : j ∈ kil.map fun ki => ki.id_in_key_trie :=
      hperm.mem_iff.mpr (List.mem_range.mpr hj)
    obtain ⟨ki, hki, hid⟩ := List.mem_map.mp hmem
    exact ⟨ki, hki, hid ▸ buildIdTable_slot kil hperm hki⟩
  have hanynone : ((buildIdTable kil).any Option.isNone) = false := by
    rw [List.any_eq_false]
    intro slot hmem
    obtain ⟨j, hj⟩ := List.mem_iff_getElem?.mp hmem
    have hjlt : j < (buildIdTable kil).length := by
      rcases List.getElem?_eq_some.mp hj with ⟨hlt', _⟩
      exact hlt'
    rw [buildIdTable_length] at hjlt
    obtain ⟨ki, _, hslotj⟩ := hslot j hjlt
    rw [hj] at hslotj
    cases hslotj
    simp
  refine ⟨((buildIdTable kil).map (entryOfSlot c)) ++ [[c.tokensTerminationFlag]],
    ?_, ?_, List.getLast?_concat _, ?_⟩
  · rw [buildTokenArray, if_neg (by rw [hoob]; exact Bool.false_ne_true),
      if_neg (by rw [hanynone]; exact Bool.false_ne_true)]
  · rw [List.length_append, List.length_map, buildIdTable_length]
    rfl
  · intro ki hki
    have hid := hlt ki hki
    rw [List.getElem?_append]
    rw [if_pos (by rw [List.length_map, buildIdTable_length]; exact hid)]
    rw [List.getElem?_map, buildIdTable_slot kil hperm hki]
    rfl

/-- Witness for `c3_token_array_emission` at a two-group permuted input. -/
theorem c3_token_array_emission_witness :
    idsPerm c3kil ∧
      ∃ entries, buildTokenArray modelCodec c3kil = Outcome.ok entries ∧
        entries.length = c3kil.length + 1 ∧
        entries.getLast? = some [modelCodec.tokensTerminationFlag] ∧
        ∀ ki ∈ c3kil, entries[ki.id_in_key_trie]? =
          some (modelCodec.encodeTokens ki.tokens) :=
  ⟨by decide, c3_token_array_emission modelCodec c3kil (by decide)⟩

end MozcBuilder

namespace MozcBuilder

theorem tokenGreaterThan_iff (a b : TokenInfo) :
    tokenGreaterThan a b = true ↔
      (b.token.lid < a.token.lid ∨
       (a.token.lid = b.token.lid ∧ (b.token.rid < a.token.rid ∨
        (a.token.rid = b.token.rid ∧ (a.id_in_value_trie < b.id_in_value_trie ∨
         (a.id_in_value_trie = b.id_in_value_trie ∧
          a.token.attributes < b.token.attributes)))))) := by
  unfold tokenGreaterThan
  split_ifs with h1 h2 h3 <;> simp <;> omega

instance : IsTotal TokenInfo tokenNotBelow where
  total a b := by
    unfold tokenNotBelow
    rcases hab : tokenGreaterThan b a with _ | _
    · exact Or.inl rfl
    · rcases hba : tokenGreaterThan a b with _ | _
      · exact Or.inr rfl
      · exfalso
        rw [tokenGreaterThan_iff] at hab hba
        omega

instance : IsTrans TokenInfo tokenNotBelow where
  trans a b c hab hbc := by
    unfold tokenNotBelow at *
    rcases h : tokenGreaterThan c a with _ | _
    · rfl
    · exfalso
      rw [tokenGreaterThan_iff] at h
      have hab' : ¬(a.token.lid < b.token.lid ∨
          (b.token.lid = a.token.lid ∧ (a.token.rid < b.token.rid ∨
           (b.token.rid = a.token.rid ∧ (b.id_in_value_trie < a.id_in_value_trie ∨
            (b.id_in_value_trie = a.id_in_value_trie ∧
             b.token.attributes < a.token.attributes)))))) := by
        rw [← tokenGreaterThan_iff]
        simp [hab]
      have hbc' : ¬(b.token.lid < c.token.lid ∨
          (c.token.lid = b.token.lid ∧ (b.token.rid < c.token.rid ∨
           (c.token.rid = b.token.rid ∧ (c.id_in_value_trie < b.id_in_value_trie ∨
            (c.id_in_value_trie = b.id_in_value_trie ∧
             c.token.attributes < b.token.attributes)))))) := by
        rw [← tokenGreaterThan_iff]
        simp [hbc]
      omega

/-- The fields of a `TokenInfo` that the comparator `TokenGreaterThan`
inspects: the referenced token and `id_in_value_trie`. -/
def sortKeyOf (ti : TokenInfo) : Token × Nat := (ti.token, ti.id_in_value_trie)

theorem tokenGreaterThan_eq_of_sortKeyOf {a b a' b' : TokenInfo}
    (ha : sortKeyOf a = sortKeyOf a') (hb : sortKeyOf b = sortKeyOf b') :
    tokenGreaterThan a b = tokenGreaterThan a' b' := by
  have ha1 : a.token = a'.token := congrArg Prod.fst ha
  have ha2 : a.id_in_value_trie = a'.id_in_value_trie := congrArg Prod.snd ha
  have hb1 : b.token = b'.token := congrArg Prod.fst hb
  have hb2 : b.id_in_value_trie = b'.id_in_value_trie := congrArg Prod.snd hb
  unfold tokenGreaterThan
  rw [ha1, ha2, hb1, hb2]

end MozcBuilder

namespace MozcBuilder

/-- `TokenGreaterThan` re-expressed on the inspected fields only. -/
def pairGreaterThan (x y : Token × Nat) : Bool :=
  if x.1.lid ≠ y.1.lid then y.1.lid < x.1.lid
  else if x.1.rid ≠ y.1.rid then y.1.rid < x.1.rid
  else if x.2 ≠ y.2 then x.2 < y.2
  else x.1.attributes < y.1.attributes

theorem tokenGreaterThan_eq_pair (a b : TokenInfo) :
    tokenGreaterThan a b = pairGreaterThan (sortKeyOf a) (sortKeyOf b) := rfl

theorem chain'_tokenNotBelow_iff_map (l : List TokenInfo) :
    List.Chain' tokenNotBelow l ↔
      List.Chain' (fun x y => pairGreaterThan y x = false) (l.map sortKeyOf) := by
  rw [List.chain'_map]
  rfl

theorem chain'_tokenNotBelow_of_sortKeys {l l' : List TokenInfo}
    (h : l.map sortKeyOf = l'.map sortKeyOf)
    (hc : List.Chain' tokenNotBelow l) : List.Chain' tokenNotBelow l' := by
  rw [chain'_tokenNotBelow_iff_map] at hc ⊢
  rwa [h] at hc

theorem sortKeyOf_setPosStep (fp : List (Nat × Nat)) (prev : Option Token)
    (ti : TokenInfo) : sortKeyOf (setPosStep fp prev ti) = sortKeyOf ti := by
  simp only [setPosStep]
  cases findFrequentPos fp (posOfToken ti.token) <;> cases prev <;> dsimp only <;>
    (try split_ifs) <;> rfl

theorem setPosTypeTokens_sortKeys (fp : List (Nat × Nat)) (prev : Option Token)
    (l : List TokenInfo) :
    (setPosTypeTokens fp prev l).map sortKeyOf = l.map sortKeyOf := by
  induction l generalizing prev with
  | nil => rfl
  | cons ti rest ih =>
    simp only [setPosTypeTokens, List.map_cons, sortKeyOf_setPosStep, ih]

theorem sortKeyOf_setValueStep (pv : List Nat) (ti : TokenInfo) :
    sortKeyOf (setValueStep pv ti) = sortKeyOf ti := by
  unfold setValueStep sortKeyOf
  split_ifs <;> rfl

theorem setValueTypeTokens_sortKeys (prev : Option (List Nat)) (l : List TokenInfo) :
    (setValueTypeTokens prev l).map sortKeyOf = l.map sortKeyOf := by
  induction l generalizing prev with
  | nil => cases prev <;> rfl
  | cons ti rest ih =>
    cases prev with
    | none => simp only [setValueTypeTokens, List.map_cons, ih]
    | some pv =>
      simp only [setValueTypeTokens, List.map_cons, sortKeyOf_setValueStep, ih]

theorem setCostTypeKi_sortKeys (minKeyLen : Nat) (ki : KeyInfo) :
    (setCostTypeKi minKeyLen ki).tokens.map sortKeyOf = ki.tokens.map sortKeyOf := by
  unfold setCostTypeKi
  split_ifs
  · rfl
  · simp only [List.map_map]
    refine List.map_congr_left ?_
    intro ti _
    simp only [Function.comp, setCostStep]
    split_ifs <;> rfl

/-- Inversion of the pipeline: a successful build names the intermediate
stages explicitly. -/
theorem buildFromTokens_ok {c : Codec} {minKeyLen : Nat} {tokens : List Token}
    {kil : List KeyInfo} {fp : List (Nat × Nat)}
    (h : buildFromTokens c minKeyLen tokens = Outcome.ok (kil, fp)) :
    ∃ kil0, readTokens tokens = Outcome.ok kil0 ∧
      (frequentPos kil0).length = numFreqPos kil0 ∧
      fp = frequentPos kil0 ∧
      kil = setValueType (setPosType (frequentPos kil0) (setCostType minKeyLen
        (sortTokenInfo (setIdForKey c (trieBuild (buildKeyTrieAdds c kil0))
          (setIdForValue c (trieBuild (buildValueTrieAdds c kil0)) kil0))))) := by
  unfold buildFromTokens at h
  cases hrt : readTokens tokens with
  | fatal msg => rw [hrt] at h; simp at h
  | undef => rw [hrt] at h; simp at h
  | ok kil0 =>
    rw [hrt] at h
    simp only [] at h
    by_cases hchk : (frequentPos kil0).length = numFreqPos kil0
    · rw [if_pos hchk] at h
      injection h with h'
      have h1 : kil = setValueType (setPosType (frequentPos kil0)
          (setCostType minKeyLen (sortTokenInfo (setIdForKey c
            (trieBuild (buildKeyTrieAdds c kil0))
            (setIdForValue c (trieBuild (buildValueTrieAdds c kil0)) kil0))))) :=
        (congrArg Prod.fst h').symm
      have h2 : fp = frequentPos kil0 := (congrArg Prod.snd h').symm
      exact ⟨kil0, rfl, hchk, h2, h1⟩
    · rw [if_neg hchk] at h
      cases h

/-- C4 (confirmed): after the build's sorting pass every key group's token
sequence is a non-strictly-monotone chain for `TokenGreaterThan` (descending
`lid`, then descending `rid`, then ascending `id_in_value_trie`, then
ascending attributes); the classifier passes do not disturb it, so it holds
of the built key-info list. -/
theorem c4_sorted_tokens (c : Codec) (minKeyLen : Nat) (tokens : List Token)
    (kil : List KeyInfo) (fp : List (Nat × Nat))
    (h : buildFromTokens c minKeyLen tokens = Outcome.ok (kil, fp)) :
    ∀ ki ∈ kil, List.Chain' (fun a b => tokenGreaterThan b a = false) ki.tokens := by
  obtain ⟨kil0, _, _, _, hkil⟩ := buildFromTokens_ok h
  subst hkil
  intro ki hki
  obtain ⟨ki1, hki1, rfl⟩ := List.mem_map.mp hki
  obtain ⟨ki2, hki2, rfl⟩ := List.mem_map.mp hki1
  obtain ⟨ki3, hki3, rfl⟩ := List.mem_map.mp hki2
  obtain ⟨ki4, hki4, rfl⟩ := List.mem_map.mp hki3
  have hsorted : List.Chain' tokenNotBelow (ki4.tokens.insertionSort tokenNotBelow) :=
    (List.sorted_insertionSort tokenNotBelow ki4.tokens).chain'
  refine chain'_tokenNotBelow_of_sortKeys ?_ hsorted
  show (({ ki4 with tokens := ki4.tokens.insertionSort tokenNotBelow } : KeyInfo).tokens.map
      sortKeyOf) = _
  rw [setValueTypeTokens_sortKeys, setPosTypeTokens_sortKeys, setCostTypeKi_sortKeys]

end MozcBuilder

namespace MozcBuilder

/-- Two equal-key tokens used to witness the pipeline theorems. -/
def witTokens : List Token :=
  [{ key := [10], value := [20], lid := 1, rid := 1, cost := 100, attributes := 0 },
   { key := [10], value := [20], lid := 1, rid := 1, cost := 200, attributes := 1 }]

/-- The single key group of `buildFromTokens modelCodec 6 witTokens`. -/
def witKi0 : KeyInfo :=
  { key := [10], id_in_key_trie := 0,
    tokens := [
      { token := { key := [10], value := [20], lid := 1, rid := 1, cost := 100,
                   attributes := 0 },
        id_in_value_trie := 0, cost_type := CostType.DEFAULT_COST,
        pos_type := PosType.FREQUENT_POS, id_in_frequent_pos_map := 0,
        value_type := ValueType.DEFAULT_VALUE },
      { token := { key := [10], value := [20], lid := 1, rid := 1, cost := 200,
                   attributes := 1 },
        id_in_value_trie := 0, cost_type := CostType.DEFAULT_COST,
        pos_type := PosType.SAME_AS_PREV_POS, id_in_frequent_pos_map := 0,
        value_type := ValueType.SAME_AS_PREV_VALUE }] }

/-- The key-info list `buildFromTokens modelCodec 6 witTokens` produces. -/
def witKil : List KeyInfo := [witKi0]

/-- The frequent-POS map `buildFromTokens modelCodec 6 witTokens` produces. -/
def witFp : List (Nat × Nat) := [(65537, 0)]

/-- Witness for `c4_sorted_tokens` on a concrete two-token build. -/
theorem c4_sorted_tokens_witness :
    List.Chain' (fun a b => tokenGreaterThan b a = false) witKi0.tokens :=
  c4_sorted_tokens modelCodec 6 witTokens witKil witFp (by decide)
    witKi0 (by decide)

end MozcBuilder

namespace MozcBuilder

theorem getValueType_cases (t : Token) :
    getValueType t = ValueType.AS_IS_HIRAGANA ∨
    getValueType t = ValueType.AS_IS_KATAKANA ∨
    getValueType t = ValueType.DEFAULT_VALUE := by
  unfold getValueType
  split_ifs <;> simp

theorem getValueType_ne_same (t : Token) :
    getValueType t ≠ ValueType.SAME_AS_PREV_VALUE := by
  rcases getValueType_cases t with h | h | h <;> simp [h]

theorem setPosStep_preserves (fp : List (Nat × Nat)) (p : Option Token)
    (ti : TokenInfo) :
    (setPosStep fp p ti).token = ti.token ∧
    (setPosStep fp p ti).value_type = ti.value_type ∧
    (setPosStep fp p ti).cost_type = ti.cost_type := by
  simp only [setPosStep]
  cases findFrequentPos fp (posOfToken ti.token) <;> cases p <;> dsimp only <;>
    (try split_ifs) <;> exact ⟨rfl, rfl, rfl⟩

theorem setValueStep_preserves (pv : List Nat) (ti : TokenInfo) :
    (setValueStep pv ti).token = ti.token ∧
    (setValueStep pv ti).pos_type = ti.pos_type ∧
    (setValueStep pv ti).cost_type = ti.cost_type := by
  unfold setValueStep
  split_ifs <;> exact ⟨rfl, rfl, rfl⟩

theorem setPosStep_sameAsPrev_iff (fp : List (Nat × Nat)) (pt : Token)
    (ti : TokenInfo) (h : ti.pos_type = PosType.DEFAULT_POS) :
    ((setPosStep fp (some pt) ti).pos_type = PosType.SAME_AS_PREV_POS ↔
      posOfToken pt = posOfToken ti.token) := by
  simp only [setPosStep]
  cases findFrequentPos fp (posOfToken ti.token) <;> dsimp only <;>
    split_ifs with hp <;> simp [hp, h]

theorem setPosStep_none_not_same (fp : List (Nat × Nat)) (ti : TokenInfo)
    (h : ti.pos_type = PosType.DEFAULT_POS) :
    (setPosStep fp none ti).pos_type ≠ PosType.SAME_AS_PREV_POS := by
  simp only [setPosStep]
  cases findFrequentPos fp (posOfToken ti.token) <;> dsimp only <;> simp [h]

theorem setValueStep_same_imp {pv : List Nat} {ti : TokenInfo}
    (h : ti.value_type = getValueType ti.token) :
    (setValueStep pv ti).value_type = ValueType.SAME_AS_PREV_VALUE →
      ti.token.value = pv ∧ getValueType ti.token = ValueType.DEFAULT_VALUE := by
  unfold setValueStep
  split_ifs with hc
  · intro _
    obtain ⟨h1, h2, h3⟩ := hc
    refine ⟨h3, ?_⟩
    rcases getValueType_cases ti.token with hg | hg | hg
    · exact absurd (h.trans hg) h1
    · exact absurd (h.trans hg) h2
    · exact hg
  · intro hsame
    exact absurd (h.symm.trans hsame) (getValueType_ne_same ti.token)

theorem mem_setPosTypeTokens {fp : List (Nat × Nat)} {p : Option Token}
    {l : List TokenInfo} {ti' : TokenInfo} (h : ti' ∈ setPosTypeTokens fp p l) :
    ∃ ti ∈ l, ti'.token = ti.token ∧ ti'.value_type = ti.value_type ∧
      ti'.cost_type = ti.cost_type := by
  induction l generalizing p with
  | nil => cases h
  | cons ti rest ih =>
    rcases List.mem_cons.mp h with rfl | hmem
    · obtain ⟨h1, h2, h3⟩ := setPosStep_preserves fp p ti
      exact ⟨ti, List.mem_cons_self _ _, h1, h2, h3⟩
    · obtain ⟨tj, htj, hp⟩ := ih hmem
      exact ⟨tj, List.mem_cons_of_mem _ htj, hp⟩

theorem mem_setValueTypeTokens {p : Option (List Nat)} {l : List TokenInfo}
    {ti' : TokenInfo} (h : ti' ∈ setValueTypeTokens p l) :
    ∃ ti ∈ l, ti'.token = ti.token ∧ ti'.pos_type = ti.pos_type ∧
      ti'.cost_type = ti.cost_type := by
  induction l generalizing p with
  | nil => cases p <;> cases h
  | cons ti rest ih =>
    cases p with
    | none =>
      rcases List.mem_cons.mp h with rfl | hmem
      · exact ⟨ti', List.mem_cons_self _ _, rfl, rfl, rfl⟩
      · obtain ⟨tj, htj, hp⟩ := ih hmem
        exact ⟨tj, List.mem_cons_of_mem _ htj, hp⟩
    | some pv =>
      rcases List.mem_cons.mp h with rfl | hmem
      · obtain ⟨h1, h2, h3⟩ := setValueStep_preserves pv ti
        exact ⟨ti, List.mem_cons_self _ _, h1, h2, h3⟩
      · obtain ⟨tj, htj, hp⟩ := ih hmem
        exact ⟨tj, List.mem_cons_of_mem _ htj, hp⟩

theorem chain'_and {α : Type} {R S : α → α → Prop} {l : List α}
    (hR : List.Chain' R l) (hS : List.Chain' S l) :
    List.Chain' (fun a b => R a b ∧ S a b) l := by
  induction l with
  | nil => exact List.chain'_nil
  | cons a l ih =>
    rw [List.chain'_cons'] at hR hS ⊢
    exact ⟨fun b hb => ⟨hR.1 b hb, hS.1 b hb⟩, ih hR.2 hS.2⟩

end MozcBuilder

namespace MozcBuilder

theorem homonymScan_false_iff (l : List TokenInfo) :
    ∀ seen : List Nat, homonymScan seen l = false ↔
      ((∀ ti ∈ l, posOfToken ti.token ∉ seen) ∧
        (l.map fun ti => posOfToken ti.token).Nodup) := by
  induction l with
  | nil => intro seen; simp [homonymScan]
  | cons ti rest ih =>
    intro seen
    by_cases hmem : seen.contains (posOfToken ti.token)
    · simp only [homonymScan, hmem, if_pos]
      constructor
      · intro h; cases h
      · rintro ⟨hall, _⟩
        exact absurd (List.mem_of_elem_eq_true hmem)
          (hall ti (List.mem_cons_self _ _))
    · simp only [homonymScan, hmem, if_neg, Bool.false_eq_true, not_false_iff]
      rw [ih (posOfToken ti.token :: seen)]
      have hnotin : posOfToken ti.token ∉ seen := by
        intro hc
        exact hmem (List.elem_eq_true_of_mem hc)
      constructor
      · rintro ⟨hall, hnd⟩
        refine ⟨?_, ?_⟩
        · intro tj htj
          rcases List.mem_cons.mp htj with rfl | hr
          · exact hnotin
          · intro hc
            exact hall tj hr (List.mem_cons_of_mem _ hc)
        · rw [List.map_cons, List.nodup_cons]
          refine ⟨?_, hnd⟩
          intro hc
          obtain ⟨tj, htj, hpos⟩ := List.mem_map.mp hc
          exact hall tj htj (hpos ▸ List.mem_cons_self _ _)
      · rintro ⟨hall, hnd⟩
        rw [List.map_cons, List.nodup_cons] at hnd
        refine ⟨?_, hnd.2⟩
        intro tj htj hc
        rcases List.mem_cons.mp hc with heq | hin
        · exact hnd.1 (heq ▸ List.mem_map_of_mem _ htj)
        · exact hall tj (List.mem_cons_of_mem _ htj) hin

theorem hasHomonymsInSamePos_false_iff (ki : KeyInfo) :
    hasHomonymsInSamePos ki = false ↔
      (ki.tokens.map fun ti => posOfToken ti.token).Nodup := by
  unfold hasHomonymsInSamePos
  split_ifs with hone
  · constructor
    · intro _
      rcases hlen : ki.tokens with _ | ⟨a, rest⟩
      · simp
      · rw [hlen] at hone
        rcases rest with _ | ⟨b, rest'⟩
        · simp
        · simp at hone
    · intro _; rfl
  · rw [homonymScan_false_iff]
    constructor
    · rintro ⟨_, hnd⟩; exact hnd
    · intro hnd
      exact ⟨fun ti _ hc => absurd hc (List.not_mem_nil _), hnd⟩

theorem setPosTypeTokens_chain (fp : List (Nat × Nat)) (l : List TokenInfo)
    (p : Option Token) (hdef : ∀ ti ∈ l, ti.pos_type = PosType.DEFAULT_POS) :
    List.Chain' (fun a b => b.pos_type = PosType.SAME_AS_PREV_POS ↔
      posOfToken a.token = posOfToken b.token) (setPosTypeTokens fp p l) := by
  induction l generalizing p with
  | nil => exact List.chain'_nil
  | cons ti rest ih =>
    rw [setPosTypeTokens, List.chain'_cons']
    refine ⟨?_, ih (some ti.token) fun tj htj => hdef tj (List.mem_cons_of_mem _ htj)⟩
    intro b hb
    cases rest with
    | nil => cases hb
    | cons tj rest' =>
      simp only [setPosTypeTokens, List.head?_cons, Option.mem_def,
        Option.some.injEq] at hb
      subst hb
      rw [(setPosStep_preserves fp p ti).1,
        (setPosStep_preserves fp (some ti.token) tj).1]
      exact setPosStep_sameAsPrev_iff fp ti.token tj
        (hdef tj (List.mem_cons_of_mem _ (List.mem_cons_self _ _)))

theorem setValueTypeTokens_chain (l : List TokenInfo) (p : Option (List Nat))
    (hvt : ∀ ti ∈ l, ti.value_type = getValueType ti.token) :
    List.Chain' (fun a b => b.value_type = ValueType.SAME_AS_PREV_VALUE →
      b.token.value = a.token.value ∧ getValueType b.token = ValueType.DEFAULT_VALUE)
      (setValueTypeTokens p l) := by
  induction l generalizing p with
  | nil => cases p <;> exact List.chain'_nil
  | cons ti rest ih =>
    have htail := ih (some ti.token.value)
      fun tj htj => hvt tj (List.mem_cons_of_mem _ htj)
    have hheadrel : ∀ a : TokenInfo, a.token = ti.token →
        ∀ b ∈ (setValueTypeTokens (some ti.token.value) rest).head?,
        b.value_type = ValueType.SAME_AS_PREV_VALUE →
          b.token.value = a.token.value ∧
          getValueType b.token = ValueType.DEFAULT_VALUE := by
      intro a ha b hb hsame
      cases rest with
      | nil => cases hb
      | cons tj rest' =>
        simp only [setValueTypeTokens, List.head?_cons, Option.mem_def,
          Option.some.injEq] at hb
        subst hb
        have htj := hvt tj (List.mem_cons_of_mem _ (List.mem_cons_self _ _))
        obtain ⟨hval, hdef⟩ := setValueStep_same_imp htj hsame
        rw [(setValueStep_preserves ti.token.value tj).1, ha]
        exact ⟨hval, hdef⟩
    cases p with
    | none =>
      rw [setValueTypeTokens, List.chain'_cons']
      exact ⟨hheadrel ti rfl, htail⟩
    | some pv =>
      rw [setValueTypeTokens, List.chain'_cons']
      exact ⟨hheadrel (setValueStep pv ti) (setValueStep_preserves pv ti).1, htail⟩

end MozcBuilder

namespace MozcBuilder

/-- The fields the POS-chain invariant inspects. -/
def posKeyOf (ti : TokenInfo) : PosType × Token := (ti.pos_type, ti.token)

/-- The POS-chain relation on the inspected fields only. -/
def pairPosRel (x y : PosType × Token) : Prop :=
  y.1 = PosType.SAME_AS_PREV_POS ↔ posOfToken x.2 = posOfToken y.2

theorem posKeyOf_setValueStep (pv : List Nat) (ti : TokenInfo) :
    posKeyOf (setValueStep pv ti) = posKeyOf ti := by
  unfold posKeyOf
  rw [(setValueStep_preserves pv ti).1, (setValueStep_preserves pv ti).2.1]

theorem setValueTypeTokens_posKeys (p : Option (List Nat)) (l : List TokenInfo) :
    (setValueTypeTokens p l).map posKeyOf = l.map posKeyOf := by
  induction l generalizing p with
  | nil => cases p <;> rfl
  | cons ti rest ih =>
    cases p with
    | none => simp only [setValueTypeTokens, List.map_cons, ih]
    | some pv =>
      simp only [setValueTypeTokens, List.map_cons, posKeyOf_setValueStep, ih]

theorem chain'_posrel_iff_map (l : List TokenInfo) :
    List.Chain' (fun a b => b.pos_type = PosType.SAME_AS_PREV_POS ↔
      posOfToken a.token = posOfToken b.token) l ↔
      List.Chain' pairPosRel (l.map posKeyOf) := by
  rw [List.chain'_map]
  rfl

theorem chain'_posrel_of_posKeys {l l' : List TokenInfo}
    (h : l.map posKeyOf = l'.map posKeyOf)
    (hc : List.Chain' (fun a b => b.pos_type = PosType.SAME_AS_PREV_POS ↔
      posOfToken a.token = posOfToken b.token) l) :
    List.Chain' (fun a b => b.pos_type = PosType.SAME_AS_PREV_POS ↔
      posOfToken a.token = posOfToken b.token) l' := by
  rw [chain'_posrel_iff_map] at hc ⊢
  rwa [h] at hc

theorem map_token_of_sortKeys {l l' : List TokenInfo}
    (h : l.map sortKeyOf = l'.map sortKeyOf) :
    (l.map fun ti => ti.token) = l'.map fun ti => ti.token := by
  have := congrArg (List.map Prod.fst) h
  simpa [List.map_map, Function.comp] using this

theorem groupLoop_tokens_init (l : List Token) (acc : KeyInfo)
    (hacc : ∀ ti ∈ acc.tokens, ∃ t, ti = initTokenInfo t) :
    ∀ ki ∈ groupLoop l acc, ∀ ti ∈ ki.tokens, ∃ t, ti = initTokenInfo t := by
  induction l generalizing acc with
  | nil =>
    intro ki hki
    rcases List.mem_singleton.mp hki with rfl
    exact hacc
  | cons t rest ih =>
    intro ki hki
    rw [groupLoop] at hki
    split_ifs at hki with hkey
    · rcases List.mem_cons.mp hki with rfl | hmem
      · exact hacc
      · refine ih _ ?_ ki hmem
        intro ti hti
        rcases List.mem_singleton.mp hti with rfl
        exact ⟨t, rfl⟩
    · refine ih _ ?_ ki hki
      intro ti hti
      rcases List.mem_append.mp hti with hin | hsing
      · exact hacc ti hin
      · rcases List.mem_singleton.mp hsing with rfl
        exact ⟨t, rfl⟩

theorem readTokens_tokens_init {tokens : List Token} {kil0 : List KeyInfo}
    (h : readTokens tokens = Outcome.ok kil0) :
    ∀ ki ∈ kil0, ∀ ti ∈ ki.tokens, ∃ t, ti = initTokenInfo t := by
  unfold readTokens at h
  cases hchk : checkTokens tokens with
  | some msg => rw [hchk] at h; cases h
  | none =>
    rw [hchk] at h
    cases hsort : sortTokensByKey tokens with
    | nil =>
      rw [hsort] at h
      injection h with h'
      subst h'
      intro ki hki
      cases hki
    | cons t rest =>
      rw [hsort] at h
      injection h with h'
      subst h'
      exact groupLoop_tokens_init (t :: rest) _ (fun ti hti => absurd hti (List.not_mem_nil ti))

theorem stage3_fields (c : Codec) (vtb ktb : List (List Nat)) (kil0 : List KeyInfo)
    (hinit : ∀ ki ∈ kil0, ∀ ti ∈ ki.tokens, ∃ t, ti = initTokenInfo t) :
    ∀ ki ∈ sortTokenInfo (setIdForKey c ktb (setIdForValue c vtb kil0)),
      ∀ ti ∈ ki.tokens,
        ti.cost_type = CostType.DEFAULT_COST ∧ ti.pos_type = PosType.DEFAULT_POS ∧
        ti.value_type = getValueType ti.token := by
  intro ki hki ti hti
  obtain ⟨ki2, hki2, rfl⟩ := List.mem_map.mp hki
  have hti2 : ti ∈ ki2.tokens :=
    (List.perm_insertionSort tokenNotBelow ki2.tokens).mem_iff.mp hti
  obtain ⟨ki1, hki1, rfl⟩ := List.mem_map.mp hki2
  have hti1 : ti ∈ ki1.tokens := hti2
  obtain ⟨ki0, hki0, rfl⟩ := List.mem_map.mp hki1
  obtain ⟨ti0, hti0, rfl⟩ := List.mem_map.mp hti1
  obtain ⟨t, rfl⟩ := hinit ki0 hki0 ti0 hti0
  exact ⟨rfl, rfl, rfl⟩

theorem mem_setCostTypeKi {minKeyLen : Nat} {ki : KeyInfo} {ti' : TokenInfo}
    (h : ti' ∈ (setCostTypeKi minKeyLen ki).tokens) :
    ∃ ti ∈ ki.tokens, ti'.token = ti.token ∧ ti'.pos_type = ti.pos_type ∧
      ti'.value_type = ti.value_type ∧
      (ti'.cost_type = CostType.CAN_USE_SMALL_ENCODING →
        ti.cost_type = CostType.CAN_USE_SMALL_ENCODING ∨
        (hasHomonymsInSamePos ki = false ∧ minKeyLen ≤ ti.token.key.length)) := by
  unfold setCostTypeKi at h
  split_ifs at h with hhom
  · exact ⟨ti', h, rfl, rfl, rfl, fun hc => Or.inl hc⟩
  · obtain ⟨ti, hti, rfl⟩ := List.mem_map.mp h
    unfold setCostStep
    split_ifs with hlen
    · exact ⟨ti, hti, rfl, rfl, rfl, fun _ =>
        Or.inr ⟨Bool.eq_false_iff.mpr hhom, hlen⟩⟩
    · exact ⟨ti, hti, rfl, rfl, rfl, fun hc => Or.inl hc⟩

end MozcBuilder

namespace MozcBuilder

theorem setValueTypeTokens_none_head (l : List TokenInfo) :
    (setValueTypeTokens none l).head? = l.head? := by
  cases l <;> rfl

/-- C5 (confirmed): after the classifier passes, SAME_AS_PREV_POS marks
exactly the tokens whose predecessor has the same combined POS (superseding
FREQUENT_POS); SAME_AS_PREV_VALUE implies the predecessor carries the same
raw value and the token's own initial classification was DEFAULT_VALUE (not
AS_IS); CAN_USE_SMALL_ENCODING implies the group has no combined-POS
homonyms and the token's key length reaches the configured minimum. -/
theorem c5_classifier_invariants (c : Codec) (minKeyLen : Nat) (tokens : List Token)
    (kil : List KeyInfo) (fp : List (Nat × Nat))
    (h : buildFromTokens c minKeyLen tokens = Outcome.ok (kil, fp)) :
    ∀ ki ∈ kil,
      (∀ ti ∈ ki.tokens, ti.cost_type = CostType.CAN_USE_SMALL_ENCODING →
        (ki.tokens.map fun tj => posOfToken tj.token).Nodup ∧
        minKeyLen ≤ ti.token.key.length) ∧
      (∀ hd, ki.tokens.head? = some hd →
        hd.pos_type ≠ PosType.SAME_AS_PREV_POS ∧
        hd.value_type ≠ ValueType.SAME_AS_PREV_VALUE) ∧
      List.Chain' (fun a b =>
        (b.pos_type = PosType.SAME_AS_PREV_POS ↔
          posOfToken a.token = posOfToken b.token) ∧
        (b.value_type = ValueType.SAME_AS_PREV_VALUE →
          b.token.value = a.token.value ∧
          getValueType b.token = ValueType.DEFAULT_VALUE)) ki.tokens := by
  obtain ⟨kil0, hrt, hchk, hfp, hkil⟩ := buildFromTokens_ok h
  subst hkil
  have hstage3 := stage3_fields c (trieBuild (buildValueTrieAdds c kil0))
    (trieBuild (buildKeyTrieAdds c kil0)) kil0 (readTokens_tokens_init hrt)
  intro ki hki
  obtain ⟨kiP, hkiP, rfl⟩ := List.mem_map.mp hki
  obtain ⟨kiC, hkiC, rfl⟩ := List.mem_map.mp hkiP
  obtain ⟨ki3, hki3, rfl⟩ := List.mem_map.mp hkiC
  have hC3 := hstage3 ki3 hki3
  have hCt_fields : ∀ ti ∈ (setCostTypeKi minKeyLen ki3).tokens,
      ti.pos_type = PosType.DEFAULT_POS ∧ ti.value_type = getValueType ti.token := by
    intro ti hti
    obtain ⟨tj, htj, htok, hpos, hvt, _⟩ := mem_setCostTypeKi hti
    obtain ⟨_, hp3, hv3⟩ := hC3 tj htj
    exact ⟨hpos.trans hp3, by rw [hvt, hv3, htok]⟩
  have hPt_vt : ∀ ti ∈ setPosTypeTokens (frequentPos kil0) none
      (setCostTypeKi minKeyLen ki3).tokens,
      ti.value_type = getValueType ti.token := by
    intro ti hti
    obtain ⟨tj, htj, htok, hvt, _⟩ := mem_setPosTypeTokens hti
    rw [hvt, (hCt_fields tj htj).2, htok]
  refine ⟨?_, ?_, ?_⟩
  · -- cost-type invariant
    intro ti hti hsmall
    obtain ⟨tj, htj, htokV, _, hcostV⟩ := mem_setValueTypeTokens hti
    obtain ⟨tk, htk, htokP, _, hcostP⟩ := mem_setPosTypeTokens htj
    obtain ⟨tl, htl, htokC, _, _, hcostC⟩ := mem_setCostTypeKi htk
    have hsmall' : tk.cost_type = CostType.CAN_USE_SMALL_ENCODING := by
      rw [← hcostP, ← hcostV]
      exact hsmall
    rcases hcostC hsmall' with hc | ⟨hhom, hlen⟩
    · exact absurd hc (by rw [(hC3 tl htl).1]; intro hcon; cases hcon)
    · have hsk : (setValueTypeTokens none (setPosTypeTokens (frequentPos kil0) none
          (setCostTypeKi minKeyLen ki3).tokens)).map sortKeyOf =
          ki3.tokens.map sortKeyOf := by
        rw [setValueTypeTokens_sortKeys, setPosTypeTokens_sortKeys,
          setCostTypeKi_sortKeys]
      have htokmap := map_token_of_sortKeys hsk
      refine ⟨?_, ?_⟩
      · have hnodup3 := (hasHomonymsInSamePos_false_iff ki3).mp hhom
        have hposmap : ((setValueTypeTokens none (setPosTypeTokens (frequentPos kil0)
            none (setCostTypeKi minKeyLen ki3).tokens)).map
              fun tj => posOfToken tj.token) =
            ki3.tokens.map fun tj => posOfToken tj.token := by
          have h1 := congrArg (List.map posOfToken) htokmap
          simpa [List.map_map, Function.comp] using h1
        rw [hposmap]
        exact hnodup3
      · rw [htokV, htokP, htokC]
        exact hlen
  · -- head invariant
    intro hd hhd
    rw [setValueTypeTokens_none_head] at hhd
    cases hCl : (setCostTypeKi minKeyLen ki3).tokens with
    | nil =>
      rw [hCl] at hhd
      cases hhd
    | cons t0 rest =>
      rw [hCl] at hhd
      simp only [setPosTypeTokens, List.head?_cons, Option.some.injEq] at hhd
      subst hhd
      have ht0 := hCt_fields t0 (hCl ▸ List.mem_cons_self t0 rest)
      constructor
      · exact setPosStep_none_not_same (frequentPos kil0) t0 ht0.1
      · rw [(setPosStep_preserves (frequentPos kil0) none t0).2.1, ht0.2]
        exact getValueType_ne_same t0.token
  · -- chain invariant
    refine chain'_and ?_ ?_
    · refine chain'_posrel_of_posKeys (setValueTypeTokens_posKeys none _).symm ?_
      exact setPosTypeTokens_chain (frequentPos kil0) _ none
        fun ti hti => (hCt_fields ti hti).1
    · exact setValueTypeTokens_chain _ none hPt_vt

/-- Witness for `c5_classifier_invariants` on a concrete two-token build. -/
theorem c5_classifier_invariants_witness :
    (∀ ti ∈ witKi0.tokens, ti.cost_type = CostType.CAN_USE_SMALL_ENCODING →
      (witKi0.tokens.map fun tj => posOfToken tj.token).Nodup ∧
      6 ≤ ti.token.key.length) ∧
    (∀ hd, witKi0.tokens.head? = some hd →
      hd.pos_type ≠ PosType.SAME_AS_PREV_POS ∧
      hd.value_type ≠ ValueType.SAME_AS_PREV_VALUE) ∧
    List.Chain' (fun a b =>
      (b.pos_type = PosType.SAME_AS_PREV_POS ↔
        posOfToken a.token = posOfToken b.token) ∧
      (b.value_type = ValueType.SAME_AS_PREV_VALUE →
        b.token.value = a.token.value ∧
        getValueType b.token = ValueType.DEFAULT_VALUE)) witKi0.tokens :=
  c5_classifier_invariants modelCodec 6 witTokens witKil witFp (by decide)
    witKi0 (by decide)

end MozcBuilder

namespace MozcBuilder

theorem setCostStep_idem (minKeyLen : Nat) (ti : TokenInfo) :
    setCostStep minKeyLen (setCostStep minKeyLen ti) = setCostStep minKeyLen ti := by
  unfold setCostStep
  split_ifs <;> simp_all

theorem setPosStep_idem (fp : List (Nat × Nat)) (p : Option Token) (ti : TokenInfo) :
    setPosStep fp p (setPosStep fp p ti) = setPosStep fp p ti := by
  rcases p with _ | pt
  · rcases hf : findFrequentPos fp (posOfToken ti.token) with _ | idx <;>
      simp [setPosStep, hf]
  · by_cases hp : posOfToken pt = posOfToken ti.token <;>
      rcases hf : findFrequentPos fp (posOfToken ti.token) with _ | idx <;>
      simp [setPosStep, hf, hp]

theorem setValueStep_idem (pv : List Nat) (ti : TokenInfo) :
    setValueStep pv (setValueStep pv ti) = setValueStep pv ti := by
  unfold setValueStep
  split_ifs <;> simp_all

theorem setCostStep_setPosStep_comm (minKeyLen : Nat) (fp : List (Nat × Nat))
    (p : Option Token) (ti : TokenInfo) :
    setCostStep minKeyLen (setPosStep fp p ti) =
      setPosStep fp p (setCostStep minKeyLen ti) := by
  rcases p with _ | pt
  · by_cases hlen : minKeyLen ≤ ti.token.key.length <;>
      rcases hf : findFrequentPos fp (posOfToken ti.token) with _ | idx <;>
      simp [setPosStep, setCostStep, hf, hlen]
  · by_cases hlen : minKeyLen ≤ ti.token.key.length <;>
      by_cases hp : posOfToken pt = posOfToken ti.token <;>
      rcases hf : findFrequentPos fp (posOfToken ti.token) with _ | idx <;>
      simp [setPosStep, setCostStep, hf, hlen, hp]

theorem setCostStep_setValueStep_comm (minKeyLen : Nat) (pv : List Nat)
    (ti : TokenInfo) :
    setCostStep minKeyLen (setValueStep pv ti) =
      setValueStep pv (setCostStep minKeyLen ti) := by
  unfold setCostStep setValueStep
  split_ifs <;> simp_all

theorem setValueStep_setPosStep_comm (fp : List (Nat × Nat)) (p : Option Token)
    (pv : List Nat) (ti : TokenInfo) :
    setValueStep pv (setPosStep fp p ti) = setPosStep fp p (setValueStep pv ti) := by
  rcases p with _ | pt
  · rcases hf : findFrequentPos fp (posOfToken ti.token) with _ | idx <;>
      simp only [setPosStep, hf] <;> (try dsimp only) <;>
      unfold setValueStep <;> split_ifs <;> simp_all [setPosStep, hf]
  · by_cases hp : posOfToken pt = posOfToken ti.token <;>
      rcases hf : findFrequentPos fp (posOfToken ti.token) with _ | idx <;>
      simp only [setPosStep, hf] <;> (try dsimp only) <;>
      unfold setValueStep <;> split_ifs <;> simp_all [setPosStep, hf]

end MozcBuilder

namespace MozcBuilder

theorem setCostStep_token (minKeyLen : Nat) (ti : TokenInfo) :
    (setCostStep minKeyLen ti).token = ti.token := by
  unfold setCostStep
  split_ifs <;> rfl

theorem setPosTypeTokens_map_cost (fp : List (Nat × Nat)) (minKeyLen : Nat)
    (p : Option Token) (l : List TokenInfo) :
    (setPosTypeTokens fp p l).map (setCostStep minKeyLen) =
      setPosTypeTokens fp p (l.map (setCostStep minKeyLen)) := by
  induction l generalizing p with
  | nil => rfl
  | cons ti rest ih =>
    simp only [setPosTypeTokens, List.map_cons]
    rw [setCostStep_setPosStep_comm, setCostStep_token, ih]

theorem setValueTypeTokens_map_cost (minKeyLen : Nat) (q : Option (List Nat))
    (l : List TokenInfo) :
    (setValueTypeTokens q l).map (setCostStep minKeyLen) =
      setValueTypeTokens q (l.map (setCostStep minKeyLen)) := by
  induction l generalizing q with
  | nil => cases q <;> rfl
  | cons ti rest ih =>
    cases q with
    | none =>
      simp only [setValueTypeTokens, List.map_cons]
      rw [setCostStep_token, ih]
    | some pv =>
      simp only [setValueTypeTokens, List.map_cons]
      rw [setCostStep_setValueStep_comm, setCostStep_token, ih]

theorem setPosTypeTokens_setValueTypeTokens_comm (fp : List (Nat × Nat))
    (p : Option Token) (q : Option (List Nat)) (l : List TokenInfo) :
    setPosTypeTokens fp p (setValueTypeTokens q l) =
      setValueTypeTokens q (setPosTypeTokens fp p l) := by
  induction l generalizing p q with
  | nil => cases q <;> rfl
  | cons ti rest ih =>
    cases q with
    | none =>
      simp only [setValueTypeTokens, setPosTypeTokens]
      rw [(setPosStep_preserves fp p ti).1, ih]
    | some pv =>
      simp only [setValueTypeTokens, setPosTypeTokens]
      rw [setValueStep_setPosStep_comm, (setValueStep_preserves pv ti).1,
        (setPosStep_preserves fp p ti).1, ih]

theorem setPosTypeTokens_idem (fp : List (Nat × Nat)) (p : Option Token)
    (l : List TokenInfo) :
    setPosTypeTokens fp p (setPosTypeTokens fp p l) = setPosTypeTokens fp p l := by
  induction l generalizing p with
  | nil => rfl
  | cons ti rest ih =>
    simp only [setPosTypeTokens]
    rw [setPosStep_idem, (setPosStep_preserves fp p ti).1, ih]

theorem setValueTypeTokens_idem (q : Option (List Nat)) (l : List TokenInfo) :
    setValueTypeTokens q (setValueTypeTokens q l) = setValueTypeTokens q l := by
  induction l generalizing q with
  | nil => cases q <;> rfl
  | cons ti rest ih =>
    cases q with
    | none =>
      simp only [setValueTypeTokens]
      rw [ih]
    | some pv =>
      simp only [setValueTypeTokens]
      rw [setValueStep_idem, (setValueStep_preserves pv ti).1, ih]

theorem map_setCostStep_idem (minKeyLen : Nat) (l : List TokenInfo) :
    (l.map (setCostStep minKeyLen)).map (setCostStep minKeyLen) =
      l.map (setCostStep minKeyLen) := by
  rw [List.map_map]
  refine List.map_congr_left ?_
  intro ti _
  simp only [Function.comp]
  exact setCostStep_idem minKeyLen ti

theorem vpvp_tokens (fp : List (Nat × Nat)) (t : List TokenInfo) :
    setValueTypeTokens none (setPosTypeTokens fp none
      (setValueTypeTokens none (setPosTypeTokens fp none t))) =
    setValueTypeTokens none (setPosTypeTokens fp none t) := by
  rw [setPosTypeTokens_setValueTypeTokens_comm, setPosTypeTokens_idem,
    setValueTypeTokens_idem]

theorem homonymScan_congr {l l' : List TokenInfo}
    (h : (l.map fun ti => posOfToken ti.token) = l'.map fun ti => posOfToken ti.token) :
    ∀ seen, homonymScan seen l = homonymScan seen l' := by
  induction l generalizing l' with
  | nil =>
    cases l' with
    | nil => intro seen; rfl
    | cons tj rest' => simp at h
  | cons ti rest ih =>
    cases l' with
    | nil => simp at h
    | cons tj rest' =>
      simp only [List.map_cons, List.cons.injEq] at h
      intro seen
      simp only [homonymScan]
      rw [← h.1, ih h.2]

theorem hasHomonyms_congr {ki ki' : KeyInfo}
    (h : (ki.tokens.map fun ti => posOfToken ti.token) =
      ki'.tokens.map fun ti => posOfToken ti.token) :
    hasHomonymsInSamePos ki = hasHomonymsInSamePos ki' := by
  unfold hasHomonymsInSamePos
  have hlen : ki.tokens.length = ki'.tokens.length := by
    have := congrArg List.length h
    simpa using this
  rw [hlen]
  split_ifs
  · rfl
  · exact homonymScan_congr h []

end MozcBuilder

namespace MozcBuilder

theorem sortKeyOf_setCostStep (minKeyLen : Nat) (ti : TokenInfo) :
    sortKeyOf (setCostStep minKeyLen ti) = sortKeyOf ti := by
  unfold setCostStep sortKeyOf
  split_ifs <;> rfl

theorem map_sortKeys_cost (minKeyLen : Nat) (l : List TokenInfo) :
    (l.map (setCostStep minKeyLen)).map sortKeyOf = l.map sortKeyOf := by
  rw [List.map_map]
  refine List.map_congr_left ?_
  intro ti _
  simp only [Function.comp]
  exact sortKeyOf_setCostStep minKeyLen ti

theorem map_pos_of_sortKeys {l l' : List TokenInfo}
    (h : l.map sortKeyOf = l'.map sortKeyOf) :
    (l.map fun ti => posOfToken ti.token) = l'.map fun ti => posOfToken ti.token := by
  have h1 := congrArg (List.map posOfToken) (map_token_of_sortKeys h)
  simpa [List.map_map, Function.comp] using h1

/-- C9 (confirmed): running the three classifier passes (`SetCostType`,
`SetPosType`, `SetValueType`) a second time on an already-classified
key-info list changes nothing — classification is idempotent. -/
theorem c9_classification_idempotent (fp : List (Nat × Nat)) (minKeyLen : Nat)
    (kil : List KeyInfo) :
    setValueType (setPosType fp (setCostType minKeyLen
      (setValueType (setPosType fp (setCostType minKeyLen kil))))) =
    setValueType (setPosType fp (setCostType minKeyLen kil)) := by
  unfold setValueType setPosType setCostType
  simp only [List.map_map]
  refine List.map_congr_left ?_
  intro ki _
  simp only [Function.comp]
  have hHomTk : ∀ tk : List TokenInfo, tk.map sortKeyOf = ki.tokens.map sortKeyOf →
      hasHomonymsInSamePos ⟨ki.key, ki.id_in_key_trie, tk⟩ = hasHomonymsInSamePos ki :=
    fun tk htk => hasHomonyms_congr (map_pos_of_sortKeys htk)
  by_cases hhom : hasHomonymsInSamePos ki = true
  · have h1 : (setValueTypeTokens none (setPosTypeTokens fp none ki.tokens)).map
        sortKeyOf = ki.tokens.map sortKeyOf := by
      rw [setValueTypeTokens_sortKeys, setPosTypeTokens_sortKeys]
    have h2 := hHomTk _ h1
    simp only [setCostTypeKi, hhom, if_true, h2]
    exact congrArg (fun tk => KeyInfo.mk ki.key ki.id_in_key_trie tk)
      (vpvp_tokens fp ki.tokens)
  · have hf : hasHomonymsInSamePos ki = false := Bool.eq_false_iff.mpr hhom
    have h1 : (setValueTypeTokens none (setPosTypeTokens fp none
        (ki.tokens.map (setCostStep minKeyLen)))).map sortKeyOf =
        ki.tokens.map sortKeyOf := by
      rw [setValueTypeTokens_sortKeys, setPosTypeTokens_sortKeys, map_sortKeys_cost]
    have h2 := hHomTk _ h1
    simp only [setCostTypeKi, hf, Bool.false_eq_true, if_false, h2]
    refine congrArg (fun tk => KeyInfo.mk ki.key ki.id_in_key_trie tk) ?_
    rw [setValueTypeTokens_map_cost, setPosTypeTokens_map_cost, map_setCostStep_idem,
      vpvp_tokens]

end MozcBuilder

namespace MozcBuilder

theorem strLt_of_le_ne {a b : List Nat} (h : strLt b a = false) (hne : a ≠ b) :
    strLt a b = true := by
  rcases hab : strLt a b with _ | _
  · exact absurd (strLt_connex hab h) hne
  · rfl

theorem strLt_lt_le {a b c : List Nat} (h1 : strLt a b = true)
    (h2 : strLt c b = false) : strLt a c = true := by
  rcases hca : strLt c a with _ | _
  · rcases hac : strLt a c with _ | _
    · have heq : a = c := strLt_connex hac hca
      subst heq
      exact absurd h2 (by simp [h1])
    · rfl
  · exact absurd h2 (by simp [strLt_trans hca h1])

theorem checkTokens_none {tokens : List Token}
    (h : ∀ t ∈ tokens, t.key ≠ [] ∧ t.value ≠ []) : checkTokens tokens = none := by
  induction tokens with
  | nil => rfl
  | cons t rest ih =>
    obtain ⟨hk, hv⟩ := h t (List.mem_cons_self _ _)
    simp only [checkTokens, if_neg hk, if_neg hv]
    exact ih fun s hs => h s (List.mem_cons_of_mem _ hs)

theorem filter_key_orderedInsert (k : List Nat) (a : Token) (l : List Token) :
    (List.orderedInsert tokenKeyLE a l).filter (fun s => s.key == k) =
      if a.key == k then a :: l.filter (fun s => s.key == k)
      else l.filter (fun s => s.key == k) := by
  induction l with
  | nil =>
    simp only [List.orderedInsert, List.filter_cons, List.filter_nil]
    try (split_ifs <;> rfl)
  | cons b l ih =>
    by_cases hr : tokenKeyLE a b
    · rw [List.orderedInsert, if_pos hr]
      simp only [List.filter_cons]
      try (split_ifs <;> rfl)
    · rw [List.orderedInsert, if_neg hr]
      have hba : strLt b.key a.key = true := by
        unfold tokenKeyLE strLe at hr
        rcases hx : strLt b.key a.key with _ | _
        · exact absurd hx hr
        · rfl
      simp only [List.filter_cons, ih]
      by_cases hak : (a.key == k) = true
      · have hbk : (b.key == k) = false := by
          rcases hy : b.key == k with _ | _
          · rfl
          · exfalso
            have h1 : b.key = k := by simpa using hy
            have h2 : a.key = k := by simpa using hak
            rw [h1, h2] at hba
            exact absurd (strLt_irrefl k) (by simp [hba])
        simp [hak, hbk]
      · simp only [hak, Bool.false_eq_true, if_false]
        try (split_ifs <;> rfl)

theorem filter_sortTokensByKey (k : List Nat) (tokens : List Token) :
    (sortTokensByKey tokens).filter (fun s => s.key == k) =
      tokens.filter (fun s => s.key == k) := by
  unfold sortTokensByKey
  induction tokens with
  | nil => rfl
  | cons t rest ih =>
    show (List.orderedInsert tokenKeyLE t (rest.insertionSort tokenKeyLE)).filter
        (fun s => s.key == k) = _
    rw [filter_key_orderedInsert, ih]
    simp only [List.filter_cons]
    try (split_ifs <;> rfl)

end MozcBuilder

namespace MozcBuilder

/-- The groups `ReadTokens` step 2 produces: maximal runs of equal adjacent
keys, each mapped to fresh `TokenInfo`s. -/
def runsGroups : List Token → List KeyInfo
  | [] => []
  | t :: rest =>
    { key := t.key, id_in_key_trie := 0,
      tokens := (t :: rest.takeWhile fun s => s.key == t.key).map initTokenInfo } ::
      runsGroups (rest.dropWhile fun s => s.key == t.key)
termination_by l => l.length
decreasing_by
  simp only [List.length_cons]
  have := (List.dropWhile_sublist (fun s => s.key == t.key) (l := rest)).length_le
  omega

theorem runsGroups_cons (t : Token) (rest : List Token) :
    runsGroups (t :: rest) =
      { key := t.key, id_in_key_trie := 0,
        tokens := (t :: rest.takeWhile fun s => s.key == t.key).map initTokenInfo } ::
        runsGroups (rest.dropWhile fun s => s.key == t.key) := by
  rw [runsGroups.eq_def]

theorem groupLoop_eq_runsGroups (l : List Token) (k : List Nat)
    (acc : List TokenInfo) :
    groupLoop l { key := k, id_in_key_trie := 0, tokens := acc } =
      { key := k, id_in_key_trie := 0,
        tokens := acc ++ (l.takeWhile fun s => s.key == k).map initTokenInfo } ::
        runsGroups (l.dropWhile fun s => s.key == k) := by
  induction l generalizing k acc with
  | nil => simp [groupLoop, runsGroups]
  | cons t rest ih =>
    by_cases hkey : k = t.key
    · subst hkey
      rw [groupLoop, if_neg (by simp)]
      rw [ih]
      simp [List.takeWhile_cons, List.dropWhile_cons]
    · rw [groupLoop, if_pos (by simpa using hkey)]
      rw [ih]
      have hne : (t.key == k) = false := by
        simp only [beq_eq_false_iff_ne, ne_eq]
        exact fun hc => hkey hc.symm
      have htake : (t :: rest).takeWhile (fun s => s.key == k) = [] := by
        simp [List.takeWhile_cons, hne]
      have hdrop : (t :: rest).dropWhile (fun s => s.key == k) = t :: rest := by
        simp [List.dropWhile_cons, hne]
      rw [htake, hdrop, runsGroups_cons]
      simp

end MozcBuilder

namespace MozcBuilder

theorem strLt_ne {a b : List Nat} (h : strLt a b = true) : a ≠ b := by
  intro hc
  subst hc
  exact absurd (strLt_irrefl a) (by simp [h])

theorem runsGroups_nil : runsGroups [] = [] := by
  rw [runsGroups.eq_def]

theorem dropWhile_first_false {α : Type} (p : α → Bool) (l : List α) {x : α}
    {xs : List α} (h : l.dropWhile p = x :: xs) : p x = false := by
  induction l with
  | nil => cases h
  | cons a l ih =>
    rw [List.dropWhile_cons] at h
    split_ifs at h with hp
    · exact ih h
    · injection h with h1 h2
      subst h1
      exact Bool.eq_false_iff.mpr hp

theorem runsGroups_sorted_spec (l : List Token) (hsort : l.Pairwise tokenKeyLE) :
    (∀ ki ∈ runsGroups l, ki.id_in_key_trie = 0 ∧
       ki.tokens = (l.filter fun s => s.key == ki.key).map initTokenInfo ∧
       ∃ t ∈ l, ki.key = t.key) ∧
    List.Chain' (fun a b => strLt a.key b.key = true) (runsGroups l) ∧
    (∀ t ∈ l, ∃ ki ∈ runsGroups l, ki.key = t.key) := by
  induction l using runsGroups.induct with
  | case1 =>
    simp only [runsGroups_nil]
    refine ⟨?_, List.chain'_nil, ?_⟩
    · intro ki hki; cases hki
    · intro t ht; cases ht
  | case2 t rest ih =>
    rcases hsort with _ | ⟨ht, hrest⟩
    have hdsub : (rest.dropWhile fun s => s.key == t.key).Sublist rest :=
      List.dropWhile_sublist _
    have hdsort : (rest.dropWhile fun s => s.key == t.key).Pairwise tokenKeyLE :=
      hrest.sublist hdsub
    obtain ⟨ihProps, ihChain, ihCover⟩ := ih hdsort
    have fd_le : ∀ s ∈ rest.dropWhile fun s => s.key == t.key, strLe t.key s.key :=
      fun s hs => ht s (List.Sublist.mem hs hdsub)
    have fd_strict : ∀ s ∈ rest.dropWhile fun s => s.key == t.key,
        strLt t.key s.key = true := by
      intro s hs
      rcases hd : rest.dropWhile fun s => s.key == t.key with _ | ⟨h0, d'⟩
      · rw [hd] at hs; cases hs
      · have hh0 : (h0.key == t.key) = false :=
          dropWhile_first_false (fun s => s.key == t.key) rest hd
        have hh0ne : t.key ≠ h0.key := by
          intro hc
          rw [← hc] at hh0
          simp at hh0
        have hlt0 : strLt t.key h0.key = true :=
          strLt_of_le_ne (fd_le h0 (by rw [hd]; exact List.mem_cons_self _ _)) hh0ne
        rw [hd] at hs
        rcases List.mem_cons.mp hs with rfl | hmem
        · exact hlt0
        · have hpair : tokenKeyLE h0 s := by
            rw [hd] at hdsort
            rcases hdsort with _ | ⟨hh, _⟩
            exact hh s hmem
          exact strLt_lt_le hlt0 hpair
    have key_ne : ∀ s ∈ rest.dropWhile fun s => s.key == t.key,
        (s.key == t.key) = false := by
      intro s hs
      have := strLt_ne (fd_strict s hs)
      simp only [beq_eq_false_iff_ne, ne_eq]
      exact fun hc => this hc.symm
    have hsplit : rest = (rest.takeWhile fun s => s.key == t.key) ++
        (rest.dropWhile fun s => s.key == t.key) :=
      (List.takeWhile_append_dropWhile _ _).symm
    have hfil_run : ((rest.takeWhile fun s => s.key == t.key).filter
        fun s => s.key == t.key) = rest.takeWhile fun s => s.key == t.key :=
      List.filter_eq_self.mpr fun s hs =>
        List.mem_takeWhile_imp (p := fun (s : Token) => s.key == t.key) hs
    have hfil_d : ((rest.dropWhile fun s => s.key == t.key).filter
        fun s => s.key == t.key) = [] :=
      List.filter_eq_nil_iff.mpr fun s hs => by simp [key_ne s hs]
    have hfil : ((t :: rest).filter fun s => s.key == t.key) =
        t :: rest.takeWhile fun s => s.key == t.key := by
      rw [List.filter_cons, if_pos (by simp)]
      rw [hsplit, List.filter_append, hfil_run, hfil_d, List.append_nil]
      rw [← hsplit]
    refine ⟨?_, ?_, ?_⟩
    · intro ki hki
      rw [runsGroups_cons] at hki
      rcases List.mem_cons.mp hki with rfl | hmem
      · exact ⟨rfl, by rw [hfil], ⟨t, List.mem_cons_self _ _, rfl⟩⟩
      · obtain ⟨hid, htok, s, hs, hkey⟩ := ihProps ki hmem
        have hkine : ∀ u ∈ t :: (rest.takeWhile fun s => s.key == t.key),
            (u.key == ki.key) = false := by
          intro u hu
          have hulk : u.key = t.key := by
            rcases List.mem_cons.mp hu with rfl | hmem'
            · rfl
            · simpa using
                List.mem_takeWhile_imp (p := fun (s : Token) => s.key == t.key) hmem'
          rw [hulk, hkey]
          have hne := strLt_ne (fd_strict s hs)
          simpa using hne
        refine ⟨hid, ?_, ⟨s, List.mem_cons_of_mem _ (List.Sublist.mem hs hdsub), hkey⟩⟩
        rw [htok]
        have hfe : ((t :: rest).filter fun u => u.key == ki.key) =
            (rest.dropWhile fun s => s.key == t.key).filter
              fun u => u.key == ki.key := by
          rw [List.filter_cons,
            if_neg (by simp [hkine t (List.mem_cons_self _ _)])]
          conv_lhs => rw [hsplit]
          rw [List.filter_append,
            List.filter_eq_nil_iff.mpr fun u hu => by
              simp [hkine u (List.mem_cons_of_mem _ hu)],
            List.nil_append]
        rw [hfe]
    · rw [runsGroups_cons]
      rw [List.chain'_cons']
      refine ⟨?_, ihChain⟩
      intro g1 hg1
      have hg1mem : g1 ∈ runsGroups (rest.dropWhile fun s => s.key == t.key) :=
        List.mem_of_mem_head? hg1
      obtain ⟨_, _, s, hs, hkey⟩ := ihProps g1 hg1mem
      rw [hkey]
      exact fd_strict s hs
    · intro u hu
      rw [runsGroups_cons]
      rcases List.mem_cons.mp hu with rfl | hmem
      · exact ⟨_, List.mem_cons_self _ _, rfl⟩
      · rw [hsplit] at hmem
        rcases List.mem_append.mp hmem with hrun | hd
        · refine ⟨_, List.mem_cons_self _ _, ?_⟩
          have := List.mem_takeWhile_imp (p := fun (s : Token) => s.key == t.key) hrun
          simp only [beq_iff_eq] at this
          exact this.symm
        · obtain ⟨ki, hki, hkey⟩ := ihCover u hd
          exact ⟨ki, List.mem_cons_of_mem _ hki, hkey⟩

end MozcBuilder

namespace MozcBuilder

/-- C7 (confirmed): `ReadTokens` groups by key with a stable byte-wise sort —
the groups appear in strictly ascending lexicographic key order, each group's
tokens are exactly the equal-key input tokens in original input order, each
wrapped by `initTokenInfo` (`value_type` from `GetValueType`, all other
annotations default), and every input token's key has a group. -/
theorem c7_read_tokens (tokens : List Token)
    (h : ∀ t ∈ tokens, t.key ≠ [] ∧ t.value ≠ []) :
    ∃ kil0, readTokens tokens = Outcome.ok kil0 ∧
      List.Chain' (fun a b => strLt a.key b.key = true) kil0 ∧
      (∀ ki ∈ kil0, ki.id_in_key_trie = 0 ∧
        ki.tokens = (tokens.filter fun s => s.key == ki.key).map initTokenInfo) ∧
      (∀ t ∈ tokens, ∃ ki ∈ kil0, ki.key = t.key) := by
  have hchk := checkTokens_none h
  have hsorted : (sortTokensByKey tokens).Pairwise tokenKeyLE :=
    List.sorted_insertionSort tokenKeyLE tokens
  have hperm : (sortTokensByKey tokens).Perm tokens :=
    List.perm_insertionSort tokenKeyLE tokens
  have hspec := runsGroups_sorted_spec (sortTokensByKey tokens) hsorted
  cases hs : sortTokensByKey tokens with
  | nil =>
    refine ⟨[], ?_, List.chain'_nil, ?_, ?_⟩
    · unfold readTokens
      rw [hchk, hs]
    · intro ki hki; cases hki
    · intro t ht
      exfalso
      rw [hs] at hperm
      have : tokens = [] := (hperm.symm).eq_nil
      rw [this] at ht
      cases ht
  | cons t0 rest =>
    rw [hs] at hspec
    refine ⟨runsGroups (t0 :: rest), ?_, hspec.2.1, ?_, ?_⟩
    · unfold readTokens
      rw [hchk, hs]
      simp only []
      rw [groupLoop_eq_runsGroups, runsGroups_cons]
      simp [List.takeWhile_cons, List.dropWhile_cons]
    · intro ki hki
      obtain ⟨hid, htok, _⟩ := hspec.1 ki hki
      refine ⟨hid, ?_⟩
      rw [htok, ← hs, filter_sortTokensByKey]
    · intro t ht
      have htmem : t ∈ t0 :: rest := by
        rw [← hs]
        exact hperm.mem_iff.mpr ht
      exact hspec.2.2 t htmem

/-- Witness for `c7_read_tokens` at a concrete two-token input. -/
theorem c7_read_tokens_witness :
    ∃ kil0, readTokens witTokens = Outcome.ok kil0 ∧
      List.Chain' (fun a b => strLt a.key b.key = true) kil0 ∧
      (∀ ki ∈ kil0, ki.id_in_key_trie = 0 ∧
        ki.tokens = (witTokens.filter fun s => s.key == ki.key).map initTokenInfo) ∧
      (∀ t ∈ witTokens, ∃ ki ∈ kil0, ki.key = t.key) :=
  c7_read_tokens witTokens (by decide)

end MozcBuilder

namespace MozcBuilder

theorem readTokens_eq_runsGroups (tokens : List Token)
    (hchk : checkTokens tokens = none) :
    readTokens tokens = Outcome.ok (runsGroups (sortTokensByKey tokens)) := by
  unfold readTokens
  rw [hchk]
  cases hs : sortTokensByKey tokens with
  | nil =>
    simp only [runsGroups_nil]
  | cons t0 rest =>
    simp only []
    rw [groupLoop_eq_runsGroups, runsGroups_cons]
    simp [List.takeWhile_cons, List.dropWhile_cons]

theorem runsGroups_flatten (l : List Token) :
    (runsGroups l).flatMap (fun ki => ki.tokens) = l.map initTokenInfo := by
  induction l using runsGroups.induct with
  | case1 => simp [runsGroups_nil]
  | case2 t rest ih =>
    rw [runsGroups_cons]
    simp only [List.flatMap_cons, ih]
    conv_rhs =>
      rw [show t :: rest =
        (t :: rest.takeWhile fun s => s.key == t.key) ++
          rest.dropWhile (fun s => s.key == t.key) from by
        rw [List.cons_append, List.takeWhile_append_dropWhile]]
    rw [List.map_append]

theorem flatMap_filter_map (kil : List KeyInfo) (p : TokenInfo → Bool)
    (f : TokenInfo → List Nat) :
    (kil.flatMap fun ki => (ki.tokens.filter p).map f) =
      ((kil.flatMap fun ki => ki.tokens).filter p).map f := by
  induction kil with
  | nil => rfl
  | cons ki rest ih =>
    simp only [List.flatMap_cons, List.filter_append, List.map_append, ih]

theorem getValueType_default_iff (t : Token) :
    getValueType t = ValueType.DEFAULT_VALUE ↔
      (t.value ≠ t.key ∧ t.value ≠ hiraganaToKatakana t.key) := by
  unfold getValueType
  split_ifs <;> simp_all

/-- C6 (confirmed): a token's encoded value is added to the value-trie
builder exactly when the token's surface form differs from the reading and
from its katakana transform (initial classification DEFAULT_VALUE); AS_IS
values are never added.  The first conjunct states the add list exactly (in
build order over the sorted tokens); the second is the membership reading
over the original input. -/
theorem c6_value_trie_adds (c : Codec) (tokens : List Token)
    (kil0 : List KeyInfo) (h : ∀ t ∈ tokens, t.key ≠ [] ∧ t.value ≠ [])
    (hrt : readTokens tokens = Outcome.ok kil0) :
    buildValueTrieAdds c kil0 =
      ((sortTokensByKey tokens).filter fun t =>
        getValueType t == ValueType.DEFAULT_VALUE).map
          (fun t => c.encodeValue t.value) ∧
    (∀ s, s ∈ buildValueTrieAdds c kil0 ↔
      ∃ t ∈ tokens, t.value ≠ t.key ∧ t.value ≠ hiraganaToKatakana t.key ∧
        s = c.encodeValue t.value) := by
  have hchk := checkTokens_none h
  have hkil0 : kil0 = runsGroups (sortTokensByKey tokens) := by
    have := readTokens_eq_runsGroups tokens hchk
    rw [hrt] at this
    injection this
  subst hkil0
  have hmain : buildValueTrieAdds c (runsGroups (sortTokensByKey tokens)) =
      ((sortTokensByKey tokens).filter fun t =>
        getValueType t == ValueType.DEFAULT_VALUE).map
          (fun t => c.encodeValue t.value) := by
    unfold buildValueTrieAdds
    rw [flatMap_filter_map, runsGroups_flatten, List.filter_map, List.map_map]
    have hpred : ∀ t ∈ sortTokensByKey tokens,
        ((fun ti : TokenInfo => !(ti.value_type == ValueType.AS_IS_HIRAGANA ||
          ti.value_type == ValueType.AS_IS_KATAKANA)) ∘ initTokenInfo) t =
        (getValueType t == ValueType.DEFAULT_VALUE) := by
      intro t _
      simp only [Function.comp, initTokenInfo]
      rcases getValueType_cases t with hg | hg | hg <;> rw [hg] <;> rfl
    rw [List.filter_congr hpred]
    rfl
  refine ⟨hmain, ?_⟩
  intro s
  rw [hmain]
  have hperm : (sortTokensByKey tokens).Perm tokens :=
    List.perm_insertionSort tokenKeyLE tokens
  constructor
  · intro hs
    obtain ⟨t, ht, henc⟩ := List.mem_map.mp hs
    obtain ⟨htmem, hdef⟩ := List.mem_filter.mp ht
    have hdef' : getValueType t = ValueType.DEFAULT_VALUE := by simpa using hdef
    obtain ⟨h1, h2⟩ := (getValueType_default_iff t).mp hdef'
    exact ⟨t, hperm.mem_iff.mp htmem, h1, h2, henc.symm⟩
  · rintro ⟨t, ht, h1, h2, rfl⟩
    refine List.mem_map.mpr ⟨t, ?_, rfl⟩
    refine List.mem_filter.mpr ⟨hperm.mem_iff.mpr ht, ?_⟩
    simpa using (getValueType_default_iff t).mpr ⟨h1, h2⟩

/-- Witness for `c6_value_trie_adds` at a concrete input containing one
AS_IS_HIRAGANA token (value = key) and one DEFAULT_VALUE token. -/
theorem c6_value_trie_adds_witness :
    ∃ kil0, readTokens (witTokens ++
        [{ key := [7], value := [7], lid := 2, rid := 2, cost := 0,
           attributes := 0 }]) = Outcome.ok kil0 ∧
      ¬((7 : Nat) :: []) ∈ buildValueTrieAdds modelCodec kil0 ∧
      ((20 : Nat) :: []) ∈ buildValueTrieAdds modelCodec kil0 := by
  refine ⟨runsGroups (sortTokensByKey (witTokens ++
    [{ key := [7], value := [7], lid := 2, rid := 2, cost := 0,
       attributes := 0 }])), readTokens_eq_runsGroups _ (by decide), ?_, ?_⟩
  · have hc6 := c6_value_trie_adds modelCodec (witTokens ++
      [{ key := [7], value := [7], lid := 2, rid := 2, cost := 0,
         attributes := 0 }]) _ (by decide) (readTokens_eq_runsGroups _ (by decide))
    rw [(hc6.2 [7])]
    decide
  · have hc6 := c6_value_trie_adds modelCodec (witTokens ++
      [{ key := [7], value := [7], lid := 2, rid := 2, cost := 0,
         attributes := 0 }]) _ (by decide) (readTokens_eq_runsGroups _ (by decide))
    rw [(hc6.2 [20])]
    decide

end MozcBuilder

namespace MozcBuilder

/-- A token whose surface form equals its reading (AS_IS_HIRAGANA). -/
def c10token : Token :=
  { key := [7], value := [7], lid := 2, rid := 2, cost := 0, attributes := 0 }

/-- The key-info list `ReadTokens` produces on `[c10token]`. -/
def c10kil : List KeyInfo :=
  [{ key := [7], id_in_key_trie := 0, tokens := [initTokenInfo c10token] }]

/-- C10 (confirmed): `SetIdForValue` stores `GetId(encoded value)` on every
`TokenInfo` with no regard to its `value_type`; consequently, on an input
whose only token has `value = key` (so nothing was added to the value trie),
the value trie's `GetId` is called on a string that was never added — outside
the trie-builder contract. -/
theorem c10_set_id_for_value :
    (∀ (c : Codec) (built : List (List Nat)) (kil : List KeyInfo),
      ∀ ki' ∈ setIdForValue c built kil, ∀ ti' ∈ ki'.tokens,
        ti'.id_in_value_trie = trieGetId built (c.encodeValue ti'.token.value)) ∧
    (readTokens [c10token] = Outcome.ok c10kil ∧
     c10token.value = c10token.key ∧
     modelCodec.encodeValue c10token.value ∈ setIdForValueCalls modelCodec c10kil ∧
     modelCodec.encodeValue c10token.value ∉ buildValueTrieAdds modelCodec c10kil) := by
  constructor
  · intro c built kil ki' hki' ti' hti'
    obtain ⟨ki, _, rfl⟩ := List.mem_map.mp hki'
    obtain ⟨ti, _, rfl⟩ := List.mem_map.mp hti'
    rfl
  · refine ⟨by decide, by decide, by decide, by decide⟩

/-- Witness for `c10_set_id_for_value` at a concrete build state. -/
theorem c10_set_id_for_value_witness :
    ∃ ki' ∈ setIdForValue modelCodec [[7]] c10kil, ∃ ti' ∈ ki'.tokens,
      ti'.id_in_value_trie = trieGetId [[7]] (modelCodec.encodeValue ti'.token.value) := by
  refine ⟨(setIdForValue modelCodec [[7]] c10kil).head (by decide), ?_, ?_⟩
  · exact List.head_mem _
  · refine ⟨((setIdForValue modelCodec [[7]] c10kil).head (by decide)).tokens.head
      (by decide), List.head_mem _, ?_⟩
    exact c10_set_id_for_value.1 modelCodec [[7]] c10kil _ (List.head_mem _) _
      (List.head_mem _)

end MozcBuilder
